import Mathlib

/-! ## Verification of the LLM_SPT orchestration core

A shallow embedding, in Lean 4, of the components of the LLM_SPT batch
subtitle-translation pipeline that its specification makes claims about:

* the data model of `pkg/contract` (records, batches, targets, spans);
* the error taxonomy and classifier of `internal/diag/errcode.go`;
* the worker retry loop of `internal/pipeline/pipeline.go`;
* the response validators of `pkg/contract` (`ValidatePerRecord`);
* the sliding-window batcher of `plugins/batcher/sliding`;
* the rate-limit gate of `internal/rate`;
* the per-file commit gate of `internal/pipeline/pipeline.go`;
* the SRT splitter of `plugins/splitter/srt`.

Go conventions are mapped as follows: `int`/`int64` become `Int` (no
overflow is relevant at the sizes involved), byte lengths of strings use
`String.utf8ByteSize` (Go `len(s)` on a string counts bytes), a Go
`(T, error)` return becomes `Except E T` with an inductive `E` naming the
distinct error sites, a nil slice and an empty slice are both the empty
list, and `float64` fields of the rate limiter become exact rationals
(`ℚ`).  Contexts (`context.Context`) are modelled as never cancelled
except where a claim is about cancellation, in which case cancellation is
an explicit input.
-/

namespace LLMSPT

/-! ## Data model (pkg/contract) -/

/-- `FileID`: logical file id, Go `type FileID string`. -/
abbrev FileID := String

/-- `Meta`: Go `type Meta map[string]string`; `none` is the nil map.
Represented as an association list, which is enough for the claims
(no claim depends on map iteration order). -/
abbrev Meta := Option (List (String × String))

/-- `contract.Record`.  Go `Index` (`int64`) is written `Int` here. -/
structure Record where
  index : Int
  fileID : FileID
  text : String
  meta : Meta
deriving Repr, DecidableEq

/-- A default record used only as the out-of-range fallback of list
indexing; all indexing below is in range. -/
def dummyRec : Record := ⟨0, "", "", none⟩

/-- `contract.Batch`. -/
structure Batch where
  fileID : FileID
  batchIndex : Int
  records : List Record
  targetFrom : Int
  targetTo : Int
deriving Repr, DecidableEq

/-- `contract.BatchLimit`. -/
structure BatchLimit where
  maxTokens : Int
deriving Repr, DecidableEq

/-- `contract.Raw`. -/
structure Raw where
  text : String
deriving Repr, DecidableEq

/-- `contract.Target`. -/
structure Target where
  fileID : FileID
  fromIdx : Int
  toIdx : Int
deriving Repr, DecidableEq

/-- `contract.SpanCandidate` (field names `From`/`To` in Go; `from` is a
Lean keyword, hence `fromIdx`/`toIdx`). -/
structure SpanCandidate where
  fromIdx : Int
  toIdx : Int
  output : String
  meta : Meta
deriving Repr, DecidableEq

/-- `contract.SpanResult`. -/
structure SpanResult where
  fileID : FileID
  fromIdx : Int
  toIdx : Int
  output : String
  meta : Meta
deriving Repr, DecidableEq

/-! ## Error values and classification (internal/diag/errcode.go)

Go error values relevant to `diag.Classify` are modelled as a tree:
sentinel errors from `pkg/contract` and the `context` package are leaves,
`fmt.Errorf("...: %w", err)` is `wrap`, `errors.Join` (or a multi-`%w`
format) is `join`, an `*os.PathError` value is the leaf `pathError`, a
value implementing `net.Error` is the leaf `netError`, and any other
error (`errors.New` etc.) is `plainErr` with its message. -/

inductive GoError where
  | ctxCanceled
  | ctxDeadlineExceeded
  | errBudgetExceeded
  | errRateLimited
  | errResponseInvalid
  | errInvariantViolation
  | errInvalidInput
  | errSeqInvalid
  | errPathInvalid
  | pathError
  | netError
  | plainErr (msg : String)
  | wrap (msg : String) (inner : GoError)
  | join (left right : GoError)
deriving Repr, DecidableEq

namespace GoError

/-- `errors.Is(e, target)` for a sentinel `target`: identity at each node
of the wrap tree, descending through `Unwrap() error` and
`Unwrap() []error`. -/
def isErr : GoError → GoError → Bool
  | e@(wrap _ inner), t => e == t || isErr inner t
  | e@(join a b), t => e == t || isErr a t || isErr b t
  | e, t => e == t

/-- `errors.As(err, &perr)` with `perr : *os.PathError`: is some node of
the tree an `*os.PathError`? -/
def asPathError : GoError → Bool
  | pathError => true
  | wrap _ inner => asPathError inner
  | join a b => asPathError a || asPathError b
  | _ => false

/-- `errors.As(err, &nerr)` with `nerr : net.Error`. -/
def asNetError : GoError → Bool
  | netError => true
  | wrap _ inner => asNetError inner
  | join a b => asNetError a || asNetError b
  | _ => false

end GoError

/-- `diag.Code`. -/
inductive Code where
  | unknown
  | network
  | protocol
  | invariant
  | budget
  | cancel
  | io
deriving Repr, DecidableEq

open GoError in
/-- `diag.Classify`.  The argument is `none` for a nil Go error. -/
def Classify : Option GoError → Code
  | none => .unknown
  | some e =>
    if isErr e .ctxCanceled || isErr e .ctxDeadlineExceeded then .cancel
    else if isErr e .errBudgetExceeded || isErr e .errRateLimited then .budget
    else if isErr e .errResponseInvalid then .protocol
    else if isErr e .errInvariantViolation || isErr e .errInvalidInput
         || isErr e .errSeqInvalid || isErr e .errPathInvalid then .invariant
    else if asPathError e then .io
    else if asNetError e then .network
    else .unknown

/-! ## Worker retry loop (internal/pipeline/pipeline.go)

The per-job body of a dispatcher worker: per attempt it calls
`gate.Wait`, `LLM.Invoke`, then `Decoder.Decode`, with a classified-error
retry decision between attempts.  The behaviour of the external calls at
each attempt is an explicit input (`AttemptEnv`), including whether the
context gets cancelled during the 200 ms pre-retry sleep. -/

/-- `pipeline.shouldRetryInvoke`. -/
def shouldRetryInvoke (err : Option GoError) : Bool :=
  match err with
  | none => false
  | some _ =>
    match Classify err with
    | .cancel => false
    | .budget => true
    | .network => true
    | _ => false

/-- `pipeline.shouldRetryDecode`. -/
def shouldRetryDecode (err : Option GoError) : Bool :=
  match err with
  | none => false
  | some _ => Classify err == Code.protocol

/-- `pipeline.sleepWithCtx(ctx, 200*time.Millisecond)`: yields
`ctx.Err()` when the context is cancelled during the sleep, nil
otherwise.  The worker discards this value (`_ = sleepWithCtx(...)`). -/
def sleepWithCtx (cancelledDuringSleep : Bool) : Option GoError :=
  if cancelledDuringSleep then some GoError.ctxCanceled else none

deriving instance DecidableEq for Except

/-- Outcome of the external calls would-be-performed at one attempt of
the retry loop: `gateResult` is what `gate.Wait` returns (used only when
a gate is configured), `invokeResult` what `LLM.Invoke` returns,
`decodeResult` what the decoder returns, and `cancelDuringSleep` whether
the context gets cancelled during the pre-retry sleep that follows a
retryable failure of this attempt. -/
structure AttemptEnv where
  gateResult : Option GoError
  invokeResult : Except GoError Raw
  decodeResult : Except GoError (List SpanResult)
  cancelDuringSleep : Bool
deriving Repr, DecidableEq

/-- What the worker emits for one job (`res{idx, spans}` or
`res{idx, err: lastErr}`), plus the number of loop iterations entered. -/
structure WorkerOut where
  result : Except (Option GoError) (List SpanResult)
  attemptsUsed : Nat
deriving Repr, DecidableEq

/-- The retry loop `for attempt := 0; attempt < attempts; attempt++` of
the worker in `pipeline.Run`: gate wait (errors break without retry),
LLM invocation (`shouldRetryInvoke` failures retry after a discarded
`sleepWithCtx`), decode (`shouldRetryDecode` failures retry likewise);
exhaustion emits the last error. -/
def workerLoop (gateEnabled : Bool) (env : Nat → AttemptEnv)
    (attempts attempt : Nat) (lastErr : Option GoError) (used : Nat) :
    WorkerOut :=
  if attempt < attempts then
    match (if gateEnabled then (env attempt).gateResult else none) with
    | some e => ⟨.error (some e), used + 1⟩
    | none =>
      match (env attempt).invokeResult with
      | .error e =>
        if attempt + 1 < attempts && shouldRetryInvoke (some e) then
          let _ := sleepWithCtx (env attempt).cancelDuringSleep
          workerLoop gateEnabled env attempts (attempt + 1) (some e) (used + 1)
        else ⟨.error (some e), used + 1⟩
      | .ok _ =>
        match (env attempt).decodeResult with
        | .error e =>
          if attempt + 1 < attempts && shouldRetryDecode (some e) then
            let _ := sleepWithCtx (env attempt).cancelDuringSleep
            workerLoop gateEnabled env attempts (attempt + 1) (some e) (used + 1)
          else ⟨.error (some e), used + 1⟩
        | .ok spans => ⟨.ok spans, used + 1⟩
  else ⟨.error lastErr, used⟩
termination_by attempts - attempt

/-- One job processed by a worker: `attempts := set.MaxRetries + 1`. -/
def workerJob (gateEnabled : Bool) (env : Nat → AttemptEnv)
    (maxRetries : Nat) : WorkerOut :=
  workerLoop gateEnabled env (maxRetries + 1) 0 none 0

/-- Environment of the C4 counterexample: attempt 0's LLM invocation
fails with a (retryable) network error and the context is cancelled
during the ensuing 200 ms pre-retry sleep; attempt 1 succeeds fully. -/
def retryEnvCE : Nat → AttemptEnv := fun k =>
  if k = 0 then ⟨none, Except.error GoError.netError, Except.ok [], true⟩
  else ⟨none, Except.ok ⟨"raw"⟩, Except.ok [⟨"f", 0, 0, "out", none⟩], false⟩

/-! ## Response validator (pkg/contract, ValidatePerRecord) -/

/-- `contract.cloneString`: forced byte copy; in a value model the copy
is the same string value. -/
def cloneString (s : String) : String :=
  if s = "" then "" else s

/-- `contract.cloneMeta`. -/
def cloneMeta (m : Meta) : Meta :=
  match m with
  | none => none
  | some kvs => some (kvs.map fun kv => (cloneString kv.1, cloneString kv.2))

/-- Validator errors: the sentinels `ErrInvalidInput` and
`ErrResponseInvalid`. -/
inductive VErr where
  | invalidInput
  | responseInvalid
deriving Repr, DecidableEq

/-- A default candidate used only as the out-of-range fallback of list
indexing; all indexing below is in range. -/
def dummyCand : SpanCandidate := ⟨0, 0, "", none⟩

/-- The per-candidate loop of `contract.ValidatePerRecord`: each
candidate must be the single point `expect`, `expect` increments; spans
are accumulated bound to `fid` with cloned output/meta.  Returns the
spans and the final value of `expect`; `none` on the first violation. -/
def vprLoop (fid : FileID) (expect : Int) :
    List SpanCandidate → Option (List SpanResult × Int)
  | [] => some ([], expect)
  | c :: cs =>
    if c.fromIdx > c.toIdx then none
    else if c.fromIdx ≠ c.toIdx then none
    else if c.fromIdx ≠ expect then none
    else
      match vprLoop fid (expect + 1) cs with
      | none => none
      | some (spans, fin) =>
        some (⟨fid, c.fromIdx, c.toIdx, cloneString c.output,
          cloneMeta c.meta⟩ :: spans, fin)

/-- `contract.ValidatePerRecord`. -/
def ValidatePerRecord (tgt : Target) (cands : List SpanCandidate) :
    Except VErr (List SpanResult) :=
  if tgt.fromIdx > tgt.toIdx then .error .invalidInput
  else if (cands.length : Int) ≠ tgt.toIdx - tgt.fromIdx + 1 then
    .error .responseInvalid
  else
    match vprLoop tgt.fileID tgt.fromIdx cands with
    | none => .error .responseInvalid
    | some (spans, fin) =>
      if fin ≠ tgt.toIdx + 1 then .error .responseInvalid
      else .ok spans

/-- Spec-side characterization used by C8: `cands` is exactly the
sequence of single-point candidates `[i,i]` for
`i = target.From, ..., target.To` in ascending order. -/
def exactPointSeq (tgt : Target) (cands : List SpanCandidate) : Bool :=
  ((cands.length : Int) == tgt.toIdx - tgt.fromIdx + 1) &&
  (List.range cands.length).all fun i =>
    ((cands.getD i dummyCand).fromIdx == tgt.fromIdx + i) &&
    ((cands.getD i dummyCand).toIdx == tgt.fromIdx + i)

/-! ## Sliding-window batcher (plugins/batcher/sliding)

`Make` validates the records (one `FileID`, `Index` contiguous from 0),
builds a prefix-sum array of per-record token estimates, and repeatedly
greedily extends a target range `[l, bestR-1]` while the window cost
(left context + target + right context) fits the budget, emitting one
batch per iteration.  Loops become recursive functions; `sum(pref,a,b)`
keeps the source's `Int` index clamping. -/

/-- `sliding.Options` (JSON-configurable, so the raw `int` fields may be
non-positive). -/
structure BatcherOptions where
  contextRadius : Int
  bytesPerToken : Int
  extraBytesPerRecord : Int
deriving Repr, DecidableEq

/-- `sliding.Batcher`.  The Go fields are `int`, but `sliding.New` only
ever stores a non-negative radius and extra, and a positive
`bytesPerToken`, so the fields are `Nat` here. -/
structure Batcher where
  ctxRadius : Nat
  bytesPerToken : Nat
  extraPerRec : Nat
deriving Repr, DecidableEq

/-- `sliding.New`. -/
def Batcher.new (opts : Option BatcherOptions) : Batcher :=
  match opts with
  | none => ⟨0, 4, 0⟩
  | some o =>
    ⟨if o.contextRadius > 0 then o.contextRadius.toNat else 0,
     if o.bytesPerToken > 0 then o.bytesPerToken.toNat else 4,
     if o.extraBytesPerRecord > 0 then o.extraBytesPerRecord.toNat else 0⟩

/-- `(*Batcher).estimateTokens`: byte length plus the per-record packing
extra, divided by `bytesPerToken` rounding up; 0 for empty input. -/
def Batcher.estimateTokens (b : Batcher) (s : String) : Nat :=
  let bytes := s.utf8ByteSize + (if b.extraPerRec > 0 then b.extraPerRec else 0)
  if bytes = 0 then 0
  else
    let d := if b.bytesPerToken = 0 then 4 else b.bytesPerToken
    (bytes + d - 1) / d

/-- The prefix-sum array built by `Make`:
`pref[0] = 0`, `pref[i+1] = pref[i] + tok i`. -/
def prefArr (toks : List Nat) : List Nat :=
  (List.range (toks.length + 1)).map fun i => (toks.take i).sum

/-- `sliding.sum(pref, a, b)` with the source's clamping of `a` below by
0 and of `b` above by `len(pref)-2`; 0 when `a > b`. -/
def sumPref (pref : List Nat) (a b : Int) : Nat :=
  if a > b then 0
  else
    pref.getD
      ((if b + 1 ≥ (pref.length : Int) then (pref.length : Int) - 2 else b)
        + 1).toNat 0
      - pref.getD (if a < 0 then 0 else a).toNat 0

/-- The cost `need` examined by the expansion loop of `Make` at right
cursor `r`: left context `sum(pref, l-radius, l-1)` (the source clamps
`l-radius` at 0 before the call; `sumPref` clamps identically), target
`sum(pref, l, r-1)`, and right context `sum(pref, r, R2)` with
`R2 = r+radius-1` clamped to `n-1`. -/
def needAt (pref : List Nat) (radius n l r : Nat) : Nat :=
  sumPref pref ((l : Int) - radius) ((l : Int) - 1)
  + sumPref pref l ((r : Int) - 1)
  + sumPref pref r
      (if (r : Int) + radius - 1 ≥ n then (n : Int) - 1 else (r : Int) + radius - 1)

/-- The inner expansion loop of `Make` (`for r <= n`): advance `r`
while the window fits; `bestR` records the last `r` that fit with a
non-empty target (`r > l`).  The recursion is on an explicit `fuel`;
the caller passes `fuel = n + 1 - r`, which bounds the remaining
iterations (each one increments `r`, and the loop stops once `r > n`),
so the fuel-exhausted branch is never reached from `makeLoop`. -/
def expandLoop (pref : List Nat) (budget : Int) (radius n l : Nat) :
    (fuel r bestR : Nat) → Nat
  | 0, _, bestR => bestR
  | fuel + 1, r, bestR =>
    if r ≤ n then
      if (needAt pref radius n l r : Int) ≤ budget then
        expandLoop pref budget radius n l fuel (r + 1)
          (if r > l then r else bestR)
      else bestR
    else bestR

/-- The distinct error sites of `sliding.Make`.  All are plain
`errors.New`/`fmt.Errorf` values (no `contract` sentinel is wrapped). -/
inductive MakeErr where
  | maxTokensNonPos
  | firstIndexNonZero
  | fileIDMismatch
  | indexNotContiguous
  | budgetNonPos
  | singleTargetNoFit
deriving Repr, DecidableEq

/-- The validation loop of `Make` (`for i := 1; i < n; i++`): each record
must carry the first record's `FileID` and the predecessor's index plus
one. -/
def checkSeq (fid : FileID) : Record → List Record → Option MakeErr
  | _, [] => none
  | prev, r :: rs =>
    if r.fileID ≠ fid then some .fileIDMismatch
    else if r.index ≠ prev.index + 1 then some .indexNotContiguous
    else checkSeq fid r rs

/-- The batch-emission loop of `Make` (`for l < n { ... }`); `none`
stands for the "single target with contexts does not fit" error.  The
recursion is on an explicit `fuel`; `Make` passes `fuel = n + 1`, which
bounds the iterations (each one strictly advances `l`, by
`expandLoop_ge` below, and the loop stops once `l ≥ n`), so the
fuel-exhausted branch (which returns the batches accumulated so far,
i.e. the empty remainder) is never reached. -/
def makeLoop (b : Batcher) (records : List Record) (fid : FileID)
    (pref : List Nat) (budget : Int) (n : Nat) :
    (fuel l : Nat) → Int → Option (List Batch)
  | 0, _, _ => some []
  | fuel + 1, l, batchIdx =>
    if l < n then
      let bestR := expandLoop pref budget b.ctxRadius n l (n + 1 - l) l l
      if bestR = l then none
      else
        let R2 := min (bestR + b.ctxRadius - 1) (n - 1)
        let L1 := l - b.ctxRadius
        match makeLoop b records fid pref budget n fuel bestR (batchIdx + 1) with
        | none => none
        | some bs =>
          some ({ fileID := fid, batchIndex := batchIdx,
                  records := (records.drop L1).take (R2 + 1 - L1),
                  targetFrom := (records.getD l dummyRec).index,
                  targetTo := (records.getD (bestR - 1) dummyRec).index } :: bs)
    else some []

/-- `(*Batcher).Make` (the context is `Background`, so the `ctxErr`
checks in the source never fire). -/
def Batcher.make (b : Batcher) (records : List Record) (limit : BatchLimit) :
    Except MakeErr (List Batch) :=
  if limit.maxTokens ≤ 0 then .error .maxTokensNonPos
  else
    match records with
    | [] => .ok []
    | first :: rest =>
      let n := records.length
      let fid := first.fileID
      if first.index ≠ 0 then .error .firstIndexNonZero
      else
        match checkSeq fid first rest with
        | some e => .error e
        | none =>
          let pref := prefArr (records.map fun r => b.estimateTokens r.text)
          let budget := limit.maxTokens
          if budget ≤ 0 then .error .budgetNonPos
          else
            match makeLoop b records fid pref budget n (n + 1) 0 0 with
            | none => .error .singleTargetNoFit
            | some bs => .ok bs

/-- Spec-side predicate: the target ranges of the batches, in emission
order, tile `[lo, hi-1]` exactly: the first batch's `TargetFrom` is
`lo`, each batch has `TargetFrom ≤ TargetTo`, each next batch starts at
the previous `TargetTo + 1`, and the last batch's `TargetTo` is
`hi - 1`. -/
def targetsChain : List Batch → Int → Int → Bool
  | [], lo, hi => lo == hi
  | bb :: bs, lo, hi =>
    (bb.targetFrom == lo) && (bb.targetFrom ≤ bb.targetTo)
      && targetsChain bs (bb.targetTo + 1) hi

/-- Spec-side predicate: `BatchIndex` values are `k, k+1, k+2, ...` in
emission order. -/
def batchIdxFrom : List Batch → Int → Bool
  | [], _ => true
  | bb :: bs, k => (bb.batchIndex == k) && batchIdxFrom bs (k + 1)

/-- Estimated token cost of a batch's full record window (left context,
target range and right context are exactly the `Records` slice). -/
def batchCost (b : Batcher) (bb : Batch) : Nat :=
  (bb.records.map fun r => b.estimateTokens r.text).sum

/-- Spec-side predicate: record `Index` values are contiguous
`0, 1, ..., N-1` in list order. -/
def recordsContiguousFrom0 (records : List Record) : Bool :=
  (List.range records.length).all fun i =>
    (records.getD i dummyRec).index == (i : Int)

/-- Spec-side predicate: all records carry the first record's `FileID`. -/
def recordsSameFile (records : List Record) : Bool :=
  records.all fun r => r.fileID == (records.headD dummyRec).fileID

/-! ## Rate-limit gate (internal/rate)

Per-key paired token buckets.  The Go `float64` level/rate arithmetic is
modelled with exact rationals (`ℚ`); `time.Time` values are seconds on
the monotonic clock, also `ℚ`.  A trace of *successful* `Wait` calls is
a list of `(now, requests, tokens)` admissions: each one performs, under
the key's mutex, exactly the refill-check-take step of the source's
`Wait` success path (`runAdmitted` returns `none` for a trace whose
admissions could not all succeed at the stated instants). -/

/-- `rate.Limits`. -/
structure Limits where
  rpm : Int
  tpm : Int
  maxTokensPerReq : Int
deriving Repr, DecidableEq

/-- `rate.bucket`. -/
structure Bucket where
  cap : Int
  level : ℚ
  rate : ℚ
  last : ℚ
deriving Repr, DecidableEq

/-- `rate.newBucket`. -/
def newBucket (capacity : Int) (now : ℚ) : Bucket :=
  if capacity ≤ 0 then ⟨0, 0, 0, 0⟩
  else ⟨capacity, (capacity : ℚ), (capacity : ℚ) / 60, now⟩

/-- `(*bucket).enabled`. -/
def Bucket.enabled (b : Bucket) : Bool := b.cap > 0

/-- `(*bucket).refill`: lazy refill at `now`; a clock that went
backwards (`now < last`) counts as no elapsed time. -/
def Bucket.refill (b : Bucket) (now : ℚ) : Bucket :=
  if ¬ b.enabled then b
  else if now < b.last then b
  else if now - b.last ≤ 0 then b
  else
    ⟨b.cap,
     if b.level + (now - b.last) * b.rate > (b.cap : ℚ) then (b.cap : ℚ)
     else b.level + (now - b.last) * b.rate,
     b.rate, now⟩

/-- `(*bucket).canTake`. -/
def Bucket.canTake (b : Bucket) (n : Int) : Bool :=
  if ¬ b.enabled then true
  else if n ≤ 0 then true
  else b.level ≥ (n : ℚ)

/-- `(*bucket).take`. -/
def Bucket.take (b : Bucket) (n : Int) : Bucket :=
  if ¬ b.enabled ∨ n ≤ 0 then b
  else
    ⟨b.cap, if b.level - (n : ℚ) < 0 then 0 else b.level - (n : ℚ),
     b.rate, b.last⟩

/-- `rate.entry` (without the mutex, which serializes admissions and is
modelled by the sequential trace). -/
structure Entry where
  lim : Limits
  req : Bucket
  tok : Bucket
deriving Repr, DecidableEq

/-- `rate.newEntry`: a dimension with a non-positive limit stays the
zero bucket (disabled). -/
def newEntry (lim : Limits) (now : ℚ) : Entry :=
  ⟨lim,
   if lim.rpm > 0 then newBucket lim.rpm now else ⟨0, 0, 0, 0⟩,
   if lim.tpm > 0 then newBucket lim.tpm now else ⟨0, 0, 0, 0⟩⟩

/-- The admission step of `gate.Wait`'s success path (under the mutex):
refill both buckets at `now`; if both can satisfy the ask, deduct and
admit, else the call would sleep and re-evaluate (`none` here). -/
def tryAdmit (e : Entry) (now : ℚ) (requests tokens : Int) : Option Entry :=
  if (e.req.refill now).canTake requests
      && (e.tok.refill now).canTake tokens then
    some ⟨e.lim, (e.req.refill now).take requests,
      (e.tok.refill now).take tokens⟩
  else none

/-- A trace of successful `Wait` admissions, applied in mutex order. -/
def runAdmitted (e : Entry) : List (ℚ × Int × Int) → Option Entry
  | [] => some e
  | (t, rq, tk) :: rest =>
    match tryAdmit e t rq tk with
    | some e1 => runAdmitted e1 rest
    | none => none

/-- The same trace seen by one bucket (one dimension). -/
def runBucket (b : Bucket) : List (ℚ × Int) → Option Bucket
  | [] => some b
  | (t, n) :: rest =>
    if (b.refill t).canTake n then runBucket ((b.refill t).take n) rest
    else none

/-- Total `Requests` admitted by a trace. -/
def reqSum (evs : List (ℚ × Int × Int)) : Int :=
  (evs.map fun ev => ev.2.1).sum

/-- Total `Tokens` admitted by a trace. -/
def tokSum (evs : List (ℚ × Int × Int)) : Int :=
  (evs.map fun ev => ev.2.2).sum

/-- The C3 counterexample trace: `rpm = tpm = 2`, bucket created at
time 0; two asks at time 0 drain the initial burst capacity, and a
third ask at time 30 is admitted from the refill -- 3 requests and 3
tokens admitted within the 60-second window `[0, 60]`. -/
def gateEvsCE : List (ℚ × Int × Int) := [(0, 1, 1), (0, 1, 1), (30, 1, 1)]

/-! ## Per-file commit gate (pipeline.go, Run: commit loop)

The commit gate consumes worker results from `outCh` in arrival order
and enforces in-order output: successful results are stored in the
`buf` map keyed by `BatchIndex`, then the loop flushes consecutive
ready batches starting at `expect` -- for each, one JSONL sidecar row
per span (in span order) and then the assembled primary bytes.
`CommitEvent` records what the two output pipes observe; `maxBuf`
records the largest buffer size observed after a result is fully
processed. -/

/-- One observable output of the commit gate: a sidecar JSONL row for
one span of batch `idx`, or the assembled primary bytes of batch
`idx`. -/
inductive CommitEvent where
  | sidecarRow (idx : Nat) (sp : SpanResult)
  | primary (idx : Nat)
deriving Repr, DecidableEq

/-- A worker result as sent on `outCh` (the `res` struct in `Run`). -/
structure WRes where
  idx : Nat
  err : Option GoError
  spans : List SpanResult
deriving Repr, DecidableEq

/-- Lookup in the `buf` map (modelled as an association list). -/
def bufLookup (buf : List (Nat × List SpanResult)) (k : Nat) :
    Option (List SpanResult) :=
  match buf with
  | [] => none
  | (i, s) :: rest => if i = k then some s else bufLookup rest k

/-- `delete(buf, k)`. -/
def bufErase (buf : List (Nat × List SpanResult)) (k : Nat) :
    List (Nat × List SpanResult) :=
  match buf with
  | [] => []
  | (i, s) :: rest =>
    if i = k then bufErase rest k else (i, s) :: bufErase rest k

/-- `buf[k] = v` (replace if present, else add). -/
def bufInsert (buf : List (Nat × List SpanResult)) (k : Nat)
    (v : List SpanResult) : List (Nat × List SpanResult) :=
  match buf with
  | [] => [(k, v)]
  | (i, s) :: rest =>
    if i = k then (i, v) :: rest else (i, s) :: bufInsert rest k v

/-- Commit-gate loop state. -/
structure GateState where
  expect : Nat
  buf : List (Nat × List SpanResult)
  trace : List CommitEvent
  firstErr : Option GoError
  maxBuf : Nat
deriving Repr, DecidableEq

/-- The inner `for { spans, ok := buf[expect]; ... }` flush loop:
while the next expected batch is buffered, emit its sidecar rows (one
per span, in span order), then its primary bytes, delete it and
advance `expect`.  Fuel bounds the iteration count; any fuel at least
`buf.length` yields the full flush, since every round removes one
entry. -/
def flushGate : Nat → GateState → GateState
  | 0, st => st
  | fuel + 1, st =>
    match bufLookup st.buf st.expect with
    | none => st
    | some spans =>
      flushGate fuel
        ⟨st.expect + 1, bufErase st.buf st.expect,
         st.trace ++ spans.map (CommitEvent.sidecarRow st.expect)
           ++ [CommitEvent.primary st.expect],
         st.firstErr, st.maxBuf⟩

/-- Buffer insertion followed by the flush loop (the success branch of
the commit loop body). -/
def commitTick (st : GateState) (idx : Nat) (spans : List SpanResult) :
    GateState :=
  flushGate (bufInsert st.buf idx spans).length
    ⟨st.expect, bufInsert st.buf idx spans, st.trace, st.firstErr, st.maxBuf⟩

/-- Processing of one `outCh` result by the commit loop: an error
result only records `firstErr` (the loop keeps draining); a success is
buffered and the gate flushed.  `maxBuf` then observes the number of
buffered, not-yet-committed batches. -/
def commitStep (st : GateState) (r : WRes) : GateState :=
  match r.err with
  | some e =>
    ⟨st.expect, st.buf, st.trace,
     (match st.firstErr with
      | none => some e
      | some e0 => some e0), st.maxBuf⟩
  | none =>
    ⟨(commitTick st r.idx r.spans).expect, (commitTick st r.idx r.spans).buf,
     (commitTick st r.idx r.spans).trace,
     (commitTick st r.idx r.spans).firstErr,
     max (commitTick st r.idx r.spans).maxBuf
       (commitTick st r.idx r.spans).buf.length⟩

/-- The commit gate over a whole arrival sequence. -/
def commitRun (st : GateState) : List WRes → GateState
  | [] => st
  | r :: rest => commitRun (commitStep st r) rest

/-- Initial commit-gate state (`expect = 0`, empty buffer). -/
def gateInit : GateState := ⟨0, [], [], none, 0⟩

/-- The fully in-order output trace for `m` batches whose spans are
`sp`: for each batch `k = 0, 1, ...` in order, one sidecar row per
span in span order, then the primary bytes of batch `k`. -/
def orderedTrace (sp : Nat → List SpanResult) (m : Nat) : List CommitEvent :=
  (List.range m).flatMap fun k =>
    (sp k).map (CommitEvent.sidecarRow k) ++ [CommitEvent.primary k]

/-! ## Worker-pool scheduler (pipeline.go, Run: producer and workers)

A small machine for which completion orders the worker pool can
produce: the producer feeds batches `0, 1, ...` in order through
`inCh`; each of `Concurrency` workers repeatedly takes the next job
and later sends its result to `outCh`.  A `SchedStep` is one atomic
scheduler choice. -/

/-- Scheduler state: `nextJob` jobs handed out so far of `totalJobs`;
`workers w` holds the batch worker `w` is busy with; `completions` is
the order results were sent on `outCh`. -/
structure Sched where
  nextJob : Nat
  totalJobs : Nat
  workers : List (Option Nat)
  completions : List Nat
deriving Repr, DecidableEq

/-- One scheduler choice: a free worker takes the next queued job, or
a busy worker finishes and sends its result. -/
inductive SchedStep where
  | dispatch (w : Nat)
  | complete (w : Nat)
deriving Repr, DecidableEq

/-- Apply one scheduler choice if it is enabled. -/
def schedStep (st : Sched) : SchedStep → Option Sched
  | .dispatch w =>
    match st.workers.get? w with
    | some none =>
      if st.nextJob < st.totalJobs then
        some ⟨st.nextJob + 1, st.totalJobs,
          st.workers.set w (some st.nextJob), st.completions⟩
      else none
    | _ => none
  | .complete w =>
    match st.workers.get? w with
    | some (some j) =>
      some ⟨st.nextJob, st.totalJobs, st.workers.set w none,
        st.completions ++ [j]⟩
    | _ => none

/-- Run a sequence of scheduler choices. -/
def schedRun (st : Sched) : List SchedStep → Option Sched
  | [] => some st
  | s :: rest =>
    match schedStep st s with
    | some st1 => schedRun st1 rest
    | none => none

/-- Fresh scheduler state: `c` idle workers, `m` queued batches. -/
def schedInit (c m : Nat) : Sched := ⟨0, m, List.replicate c none, []⟩

/-! ## SRT splitter (plugins/splitter/srt)

`Split` is modelled over Unicode text: the input reader's remaining
bytes are a `List Char` (so the byte-level UTF-8 validity check of the
source, `utf8.ValidString`, holds for every input of the model), and
byte lengths are UTF-8 byte counts of the corresponding strings.
Case-folding is per-`Char` (`Char.toLower`), matching Go's
`strings.ToLower` on ASCII extensions. -/

/-- `srt.Options`. -/
structure SrtOptions where
  maxFragmentBytes : Int
  allowExts : Option (List String)
deriving Repr, DecidableEq

/-- `srt.Splitter`: `allow = none` means no extension restriction. -/
structure Splitter where
  maxBytes : Int
  allow : Option (List String)
deriving Repr, DecidableEq

/-- `srt.New`: nil options or nil `AllowExts` give the default allow
set `{".srt"}`; a non-empty list is lower-cased with empty entries
skipped; an explicitly empty list disables the restriction. -/
def srtNew (opts : Option SrtOptions) : Splitter :=
  ⟨(match opts with
    | some o => if o.maxFragmentBytes > 0 then o.maxFragmentBytes else 0
    | none => 0),
   (match opts with
    | none => some [".srt"]
    | some o =>
      match o.allowExts with
      | none => some [".srt"]
      | some exts =>
        if exts.length > 0 then
          some ((exts.filter (fun e => ¬ e = "")).map
            (fun e => String.mk (e.toList.map Char.toLower)))
        else none)⟩

/-- `path.Ext` on the reversed character list: scan back from the end,
returning the suffix from the final dot of the final slash-separated
element. -/
def pathExtAux : List Char → List Char → List Char
  | [], _ => []
  | c :: rest, acc =>
    if c = '.' then c :: acc
    else if c = '/' then []
    else pathExtAux rest (c :: acc)

/-- `path.Ext`. -/
def pathExt (l : List Char) : List Char := pathExtAux l.reverse []

/-- `bufio.ReadString('\n')` on the remaining input: the rest after
the first newline, the consumed line (newline stripped is done by the
caller; here the line excludes nothing), and whether EOF was hit
before a newline. -/
def readLineRaw : List Char → List Char × List Char × Bool
  | [] => ([], [], true)
  | c :: rest =>
    if c = '\n' then ([c], rest, false)
    else (c :: (readLineRaw rest).1, (readLineRaw rest).2.1,
      (readLineRaw rest).2.2)

/-- Drop a single trailing character `c` if present. -/
def dropTrail (l : List Char) (c : Char) : List Char :=
  if l.getLast? = some c then l.dropLast else l

/-- `readTrimmedLine`: one line with CRLF/LF stripped, the reported
EOF flag (`eofRaw && line == ""`), and the remaining input. -/
def readTrimmedLine2 (buf : List Char) : List Char × Bool × List Char :=
  (dropTrail (dropTrail (readLineRaw buf).1 '\n') '\r',
   (readLineRaw buf).2.2
     && (dropTrail (dropTrail (readLineRaw buf).1 '\n') '\r').isEmpty,
   (readLineRaw buf).2.1)

/-- `strconv.Atoi` succeeds: optional sign then one or more digits
(integer range ignored). -/
def atoiOk : List Char → Bool
  | [] => false
  | c :: rest =>
    if c = '+' || c = '-' then !rest.isEmpty && rest.all (fun d => d.isDigit)
    else (c :: rest).all (fun d => d.isDigit)

/-- The anchored pattern of `timeLineRe`:
`^\d{2}:\d{2}:\d{2},\d{3} --> \d{2}:\d{2}:\d{2},\d{3}`. -/
def timePattern : List (Char → Bool) :=
  [(fun c => c.isDigit), (fun c => c.isDigit), (fun c => c = ':'),
   (fun c => c.isDigit), (fun c => c.isDigit), (fun c => c = ':'),
   (fun c => c.isDigit), (fun c => c.isDigit), (fun c => c = ','),
   (fun c => c.isDigit), (fun c => c.isDigit), (fun c => c.isDigit),
   (fun c => c = ' '), (fun c => c = '-'), (fun c => c = '-'),
   (fun c => c = '>'), (fun c => c = ' '),
   (fun c => c.isDigit), (fun c => c.isDigit), (fun c => c = ':'),
   (fun c => c.isDigit), (fun c => c.isDigit), (fun c => c = ':'),
   (fun c => c.isDigit), (fun c => c.isDigit), (fun c => c = ','),
   (fun c => c.isDigit), (fun c => c.isDigit), (fun c => c.isDigit)]

/-- `MatchString` for an anchored character-class pattern: the input
starts with characters satisfying the pattern in order. -/
def patMatch : List (Char → Bool) → List Char → Bool
  | [], _ => true
  | _ :: _, [] => false
  | p :: ps, c :: cs => p c && patMatch ps cs

/-- Byte length of a character list's UTF-8 encoding (Go `len` of the
corresponding string). -/
def charBytes (l : List Char) : Int := ((String.mk l).utf8ByteSize : Int)

/-- Errors of `srt.Split`. -/
inductive SrtErr where
  | invalidSeq (line : String)
  | invalidTime (line : String)
  | fragTooLarge (n mx : Int)
deriving Repr, DecidableEq

/-- The text-collection loop of one SRT block: reads lines until a
blank line (which the reported-EOF condition implies), enforcing
`MaxFragmentBytes` on the predicted joined size.  Returns the
collected lines and the remaining input; fuel bounds iterations, any
fuel above the input length is enough. -/
def collectTexts (mx : Int) : Nat → List Char → List (List Char) → Int →
    Except SrtErr (List (List Char) × List Char)
  | 0, buf, texts, _ => Except.ok (texts, buf)
  | fuel + 1, buf, texts, sumBytes =>
    if ((readTrimmedLine2 buf).1.isEmpty || (readTrimmedLine2 buf).2.1) then
      if (readTrimmedLine2 buf).2.1 && !(readTrimmedLine2 buf).1.isEmpty then
        if mx > 0
            && charBytes (readTrimmedLine2 buf).1
                + (if texts.length > 0 then (texts.length : Int) else 0)
                + sumBytes > mx then
          Except.error (SrtErr.fragTooLarge
            (sumBytes + charBytes (readTrimmedLine2 buf).1
              + (if texts.length > 0 then (texts.length : Int) else 0)) mx)
        else Except.ok (texts ++ [(readTrimmedLine2 buf).1],
          (readTrimmedLine2 buf).2.2)
      else Except.ok (texts, (readTrimmedLine2 buf).2.2)
    else
      if mx > 0
          && charBytes (readTrimmedLine2 buf).1
              + (if texts.length > 0 then (texts.length : Int) else 0)
              + sumBytes > mx then
        Except.error (SrtErr.fragTooLarge
          (sumBytes + charBytes (readTrimmedLine2 buf).1
            + (if texts.length > 0 then (texts.length : Int) else 0)) mx)
      else
        collectTexts mx fuel (readTrimmedLine2 buf).2.2
          (texts ++ [(readTrimmedLine2 buf).1])
          (sumBytes + charBytes (readTrimmedLine2 buf).1)

/-- The block loop of `srt.Split`: sequence line, time line, text
lines; emits one `Record` per block with `Meta{"seq", "time"}` and
indices `idx, idx+1, ...`.  Fuel bounds outer iterations. -/
def srtBlocks (s : Splitter) (fileID : String) : Nat → List Char → Int →
    Except SrtErr (List Record)
  | 0, _, _ => Except.ok []
  | fuel + 1, buf, idx =>
    if (readTrimmedLine2 buf).2.1 then Except.ok []
    else if (readTrimmedLine2 buf).1.isEmpty then
      srtBlocks s fileID fuel (readTrimmedLine2 buf).2.2 idx
    else if !atoiOk (readTrimmedLine2 buf).1 then
      Except.error (SrtErr.invalidSeq (String.mk (readTrimmedLine2 buf).1))
    else if !patMatch timePattern
        (readTrimmedLine2 (readTrimmedLine2 buf).2.2).1 then
      Except.error (SrtErr.invalidTime
        (String.mk (readTrimmedLine2 (readTrimmedLine2 buf).2.2).1))
    else
      match collectTexts s.maxBytes
        ((readTrimmedLine2 (readTrimmedLine2 buf).2.2).2.2.length + 1)
        (readTrimmedLine2 (readTrimmedLine2 buf).2.2).2.2 [] 0 with
      | Except.error e => Except.error e
      | Except.ok (texts, rest3) =>
        if s.maxBytes > 0
            && charBytes (List.intercalate ['\n'] texts) > s.maxBytes then
          Except.error (SrtErr.fragTooLarge
            (charBytes (List.intercalate ['\n'] texts)) s.maxBytes)
        else
          match srtBlocks s fileID fuel rest3 (idx + 1) with
          | Except.error e => Except.error e
          | Except.ok recs =>
            Except.ok (⟨idx, fileID,
              String.mk (List.intercalate ['\n'] texts),
              some [("seq", String.mk (readTrimmedLine2 buf).1),
                ("time", String.mk
                  (readTrimmedLine2 (readTrimmedLine2 buf).2.2).1)]⟩ :: recs)

/-- `srt.Split` (context never cancelled): the extension gate, then
the block loop over the whole input. -/
def srtSplit (s : Splitter) (fileID : String) (input : String) :
    Except SrtErr (List Record) :=
  match s.allow with
  | some al =>
    if String.mk ((pathExt fileID.toList).map Char.toLower) ∈ al then
      srtBlocks s fileID (input.toList.length + 1) input.toList 0
    else Except.ok []
  | none => srtBlocks s fileID (input.toList.length + 1) input.toList 0

/-! ## Theorems -/

theorem take_sum_le (toks : List Nat) (i j : Nat) (h : i ≤ j) :
    (toks.take i).sum ≤ (toks.take j).sum := by
  have : toks.take j = toks.take i ++ ((toks.drop i).take (j - i)) := by
    rw [← List.take_add]
    congr 1
    omega
  rw [this, List.sum_append]
  omega

theorem slice_sum (toks : List Nat) (a m : Nat) :
    ((toks.drop a).take m).sum = (toks.take (a + m)).sum - (toks.take a).sum := by
  have : toks.take (a + m) = toks.take a ++ ((toks.drop a).take m) := by
    rw [← List.take_add]
  rw [this, List.sum_append]
  omega

theorem prefArr_length (toks : List Nat) :
    (prefArr toks).length = toks.length + 1 := by
  simp [prefArr]

theorem prefArr_getD (toks : List Nat) (i : Nat) (h : i ≤ toks.length) :
    (prefArr toks).getD i 0 = (toks.take i).sum := by
  rw [prefArr, List.getD, List.get?_eq_getElem?, List.getElem?_map,
    List.getElem?_range (by omega)]
  rfl

theorem sumPref_left (toks : List Nat) (radius l : Nat)
    (hl : l ≤ toks.length) :
    sumPref (prefArr toks) ((l : Int) - radius) ((l : Int) - 1)
      = (toks.take l).sum - (toks.take (l - radius)).sum := by
  rw [sumPref]
  by_cases hr0 : radius = 0
  · rw [if_pos (by omega)]
    have : l - radius = l := by omega
    rw [this]
    omega
  · rw [if_neg (by omega)]
    rw [prefArr_length]
    by_cases hl0 : l = 0
    · subst hl0
      rw [if_neg (by omega), if_pos (by omega)]
      have hz : ((((0 : Nat) : Int)) - 1 + 1).toNat = 0 := by omega
      rw [hz, show ((0 : Int)).toNat = 0 from rfl,
        prefArr_getD toks 0 (by omega)]
      simp
    · rw [if_neg (by omega)]
      have hb1 : (((l : Int) - 1) + 1).toNat = l := by omega
      rw [hb1]
      by_cases ha : (l : Int) - radius < 0
      · rw [if_pos ha]
        rw [show ((0 : Int)).toNat = 0 from rfl]
        rw [prefArr_getD toks l hl, prefArr_getD toks 0 (by omega)]
        have : l - radius = 0 := by omega
        rw [this]
      · rw [if_neg ha]
        have : ((l : Int) - radius).toNat = l - radius := by omega
        rw [this, prefArr_getD toks l hl, prefArr_getD toks (l - radius) (by omega)]

theorem sumPref_mid (toks : List Nat) (l r : Nat) (hlr : l ≤ r)
    (hr : r ≤ toks.length) :
    sumPref (prefArr toks) l ((r : Int) - 1)
      = (toks.take r).sum - (toks.take l).sum := by
  rw [sumPref]
  by_cases heq : r = l
  · subst heq
    rw [if_pos (by omega)]
    omega
  · rw [if_neg (by omega), prefArr_length, if_neg (by omega), if_neg (by omega)]
    have hb1 : (((r : Int) - 1) + 1).toNat = r := by omega
    have ha : ((l : Int)).toNat = l := by omega
    rw [hb1, ha, prefArr_getD toks r hr, prefArr_getD toks l (by omega)]

theorem sumPref_right (toks : List Nat) (radius r : Nat)
    (hr : r ≤ toks.length) :
    sumPref (prefArr toks)
      (r : Int)
      (if (r : Int) + radius - 1 ≥ (toks.length : Int)
        then (toks.length : Int) - 1 else (r : Int) + radius - 1)
      = (toks.take (min (r + radius) toks.length)).sum - (toks.take r).sum := by
  by_cases hcase : (r : Int) + radius - 1 ≥ (toks.length : Int)
  · rw [if_pos hcase, sumPref]
    by_cases hrn : r = toks.length
    · rw [if_pos (by omega)]
      have : min (r + radius) toks.length = r := by omega
      rw [this]
      omega
    · rw [if_neg (by omega), prefArr_length, if_neg (by omega),
        if_neg (by omega)]
      have hb1 : (((toks.length : Int) - 1) + 1).toNat = toks.length := by omega
      have ha : ((r : Int)).toNat = r := by omega
      have hm : min (r + radius) toks.length = toks.length := by omega
      rw [hb1, ha, hm, prefArr_getD toks toks.length (by omega),
        prefArr_getD toks r hr]
  · rw [if_neg hcase, sumPref]
    by_cases hrad : radius = 0
    · rw [if_pos (by omega)]
      have : min (r + radius) toks.length = r := by omega
      rw [this]
      omega
    · rw [if_neg (by omega), prefArr_length, if_neg (by omega),
        if_neg (by omega)]
      have hb1 : (((r : Int) + radius - 1) + 1).toNat = r + radius := by omega
      have ha : ((r : Int)).toNat = r := by omega
      have hm : min (r + radius) toks.length = r + radius := by omega
      rw [hb1, ha, hm, prefArr_getD toks (r + radius) (by omega),
        prefArr_getD toks r hr]

theorem needAt_eq (toks : List Nat) (radius l r : Nat) (hlr : l ≤ r)
    (hr : r ≤ toks.length) :
    needAt (prefArr toks) radius toks.length l r
      = (toks.take (min (r + radius) toks.length)).sum
        - (toks.take (l - radius)).sum := by
  rw [needAt, sumPref_left toks radius l (by omega),
    sumPref_mid toks l r hlr hr, sumPref_right toks radius r hr]
  have m1 : (toks.take (l - radius)).sum ≤ (toks.take l).sum :=
    take_sum_le toks _ _ (by omega)
  have m2 : (toks.take l).sum ≤ (toks.take r).sum :=
    take_sum_le toks _ _ hlr
  have m3 : (toks.take r).sum ≤ (toks.take (min (r + radius) toks.length)).sum :=
    take_sum_le toks _ _ (by omega)
  omega

theorem expandLoop_ge (pref : List Nat) (budget : Int) (radius n l : Nat) :
    ∀ (fuel r bestR : Nat), l ≤ bestR →
      l ≤ expandLoop pref budget radius n l fuel r bestR ∧
      (expandLoop pref budget radius n l fuel r bestR = bestR ∨
        (l < expandLoop pref budget radius n l fuel r bestR
          ∧ expandLoop pref budget radius n l fuel r bestR ≤ n
          ∧ (needAt pref radius n l
              (expandLoop pref budget radius n l fuel r bestR) : Int)
              ≤ budget)) := by
  intro fuel
  induction fuel with
  | zero =>
    intro r bestR hle
    rw [expandLoop]
    exact ⟨hle, Or.inl rfl⟩
  | succ m ih =>
    intro r bestR hle
    rw [expandLoop]
    by_cases h1 : r ≤ n
    · rw [if_pos h1]
      by_cases h2 : (needAt pref radius n l r : Int) ≤ budget
      · rw [if_pos h2]
        by_cases h3 : r > l
        · simp only [if_pos h3]
          obtain ⟨iha, ihb⟩ := ih (r + 1) r (by omega)
          refine ⟨iha, ?_⟩
          rcases ihb with heq | hlt
          · exact Or.inr ⟨by omega, by omega, by rw [heq]; exact h2⟩
          · exact Or.inr hlt
        · simp only [if_neg h3]
          exact ih (r + 1) bestR hle
      · rw [if_neg h2]
        exact ⟨hle, Or.inl rfl⟩
    · rw [if_neg h1]
      exact ⟨hle, Or.inl rfl⟩

theorem makeLoop_spec (b : Batcher) (records : List Record) (fid : FileID)
    (budget : Int)
    (hidx : ∀ i, i < records.length →
      (records.getD i dummyRec).index = (i : Int)) :
    ∀ (fuel l : Nat) (batchIdx : Int) (bs : List Batch),
      records.length - l ≤ fuel → l ≤ records.length →
      makeLoop b records fid
        (prefArr (records.map fun r => b.estimateTokens r.text)) budget
        records.length fuel l batchIdx = some bs →
      targetsChain bs (l : Int) (records.length : Int) = true
      ∧ batchIdxFrom bs batchIdx = true
      ∧ ∀ bb ∈ bs, (batchCost b bb : Int) ≤ budget := by
  intro fuel
  induction fuel with
  | zero =>
    intro l batchIdx bs hf hle h
    have hln : l = records.length := by omega
    subst hln
    rw [makeLoop] at h
    simp only [Option.some.injEq] at h
    subst h
    exact ⟨by simp [targetsChain], by simp [batchIdxFrom], by simp⟩
  | succ m ih =>
    intro l batchIdx bs hf hle h
    by_cases hlt : l < records.length
    · rw [makeLoop, if_pos hlt] at h
      simp only [] at h
      obtain ⟨hge, hdisj⟩ := expandLoop_ge
        (prefArr (records.map fun r => b.estimateTokens r.text)) budget
        b.ctxRadius records.length l (records.length + 1 - l) l l (le_refl l)
      set E := expandLoop
        (prefArr (records.map fun r => b.estimateTokens r.text)) budget
        b.ctxRadius records.length l (records.length + 1 - l) l l with hE
      by_cases hbr : E = l
      · rw [if_pos hbr] at h
        exact absurd h (by simp)
      · rw [if_neg hbr] at h
        have hltE : l < E := by omega
        rcases hdisj with heq | ⟨_, hEn, hneed⟩
        · exact absurd heq hbr
        cases hrec : makeLoop b records fid
            (prefArr (records.map fun r => b.estimateTokens r.text)) budget
            records.length m E (batchIdx + 1) with
        | none =>
          rw [hrec] at h
          exact absurd h (by simp)
        | some bs' =>
          rw [hrec] at h
          simp only [Option.some.injEq] at h
          subst h
          obtain ⟨ih1, ih2, ih3⟩ := ih E (batchIdx + 1) bs' (by omega) hEn hrec
          have hE1 : E - 1 < records.length := by omega
          refine ⟨?_, ?_, ?_⟩
          · simp only [targetsChain, Bool.and_eq_true, beq_iff_eq,
              decide_eq_true_eq, hidx l hlt, hidx (E - 1) hE1]
            refine ⟨⟨trivial, by omega⟩, ?_⟩
            have hcast : ((E - 1 : Nat) : Int) + 1 = (E : Int) := by omega
            rw [hcast]
            exact ih1
          · simp only [batchIdxFrom, Bool.and_eq_true, beq_iff_eq]
            exact ⟨trivial, ih2⟩
          · intro bb hbb
            rcases List.mem_cons.mp hbb with hfirst | hrest
            · subst hfirst
              have hcost : batchCost b
                  { fileID := fid, batchIndex := batchIdx,
                    records := (records.drop (l - b.ctxRadius)).take
                      (min (E + b.ctxRadius - 1) (records.length - 1) + 1
                        - (l - b.ctxRadius)),
                    targetFrom := (records.getD l dummyRec).index,
                    targetTo := (records.getD (E - 1) dummyRec).index }
                  = needAt
                    (prefArr (records.map fun r => b.estimateTokens r.text))
                    b.ctxRadius records.length l E := by
                rw [batchCost]
                have hmaps : ((records.drop (l - b.ctxRadius)).take
                      (min (E + b.ctxRadius - 1) (records.length - 1) + 1
                        - (l - b.ctxRadius))).map
                      (fun r => b.estimateTokens r.text)
                    = ((records.map fun r => b.estimateTokens r.text).drop
                        (l - b.ctxRadius)).take
                        (min (E + b.ctxRadius - 1) (records.length - 1) + 1
                          - (l - b.ctxRadius)) := by
                  rw [List.map_take, List.map_drop]
                rw [hmaps]
                have hlen : (records.map fun r =>
                    b.estimateTokens r.text).length = records.length :=
                  List.length_map _ _
                rw [slice_sum]
                have harg : (l - b.ctxRadius)
                    + (min (E + b.ctxRadius - 1) (records.length - 1) + 1
                      - (l - b.ctxRadius))
                    = min (E + b.ctxRadius)
                        (records.map fun r => b.estimateTokens r.text).length := by
                  rw [hlen]
                  omega
                rw [harg, ← hlen, needAt_eq _ b.ctxRadius l E (by omega)
                  (by omega)]
              rw [hcost]
              exact hneed
            · exact ih3 bb hrest
    · rw [makeLoop, if_neg hlt] at h
      simp only [Option.some.injEq] at h
      subst h
      have hln : l = records.length := by omega
      subst hln
      exact ⟨by simp [targetsChain], by simp [batchIdxFrom], by simp⟩

theorem checkSeq_none_facts (fid : FileID) :
    ∀ (rest : List Record) (prev : Record),
      checkSeq fid prev rest = none →
      (∀ r ∈ rest, r.fileID = fid)
      ∧ ∀ i, i < rest.length →
          (rest.getD i dummyRec).index = prev.index + 1 + i := by
  intro rest
  induction rest with
  | nil =>
    intro prev _
    exact ⟨by simp, by simp⟩
  | cons r rs ih =>
    intro prev h
    simp only [checkSeq] at h
    by_cases h1 : r.fileID ≠ fid
    · rw [if_pos h1] at h; exact absurd h (by simp)
    rw [if_neg h1] at h
    by_cases h2 : r.index ≠ prev.index + 1
    · rw [if_pos h2] at h; exact absurd h (by simp)
    rw [if_neg h2] at h
    push_neg at h1 h2
    obtain ⟨ihf, ihi⟩ := ih r h
    refine ⟨?_, ?_⟩
    · intro x hx
      rcases List.mem_cons.mp hx with hx0 | hx'
      · rw [hx0]; exact h1
      · exact ihf x hx'
    · intro i hi
      match i with
      | 0 => simpa using h2
      | j + 1 =>
        have hj : j < rs.length := by simpa using hi
        have hgt := ihi j hj
        simp only [List.getD_cons_succ]
        rw [hgt, h2]
        push_cast
        ring

theorem checkSeq_none_of (fid : FileID) :
    ∀ (rest : List Record) (prev : Record),
      (∀ r ∈ rest, r.fileID = fid) →
      (∀ i, i < rest.length →
        (rest.getD i dummyRec).index = prev.index + 1 + i) →
      checkSeq fid prev rest = none := by
  intro rest
  induction rest with
  | nil => intro prev _ _; rfl
  | cons r rs ih =>
    intro prev hf hi
    have h0 := hi 0 (by simp)
    simp only [List.getD_cons_zero, Int.natCast_zero, add_zero] at h0
    have hf0 : r.fileID = fid := hf r (List.mem_cons_self r rs)
    simp only [checkSeq]
    rw [if_neg (by simp [hf0]), if_neg (by simp [h0])]
    refine ih r (fun x hx => hf x (List.mem_cons_of_mem r hx)) ?_
    intro i hilt
    have := hi (i + 1) (by simpa using hilt)
    simp only [List.getD_cons_succ] at this
    rw [this, h0]
    push_cast
    ring

theorem checkSeq_some_cases (fid : FileID) :
    ∀ (rest : List Record) (prev : Record) (e : MakeErr),
      checkSeq fid prev rest = some e →
      e = MakeErr.fileIDMismatch ∨ e = MakeErr.indexNotContiguous := by
  intro rest
  induction rest with
  | nil =>
    intro prev e h
    exact absurd h (by simp [checkSeq])
  | cons r rs ih =>
    intro prev e h
    simp only [checkSeq] at h
    by_cases h1 : r.fileID ≠ fid
    · rw [if_pos h1] at h
      simp only [Option.some.injEq] at h
      exact Or.inl h.symm
    rw [if_neg h1] at h
    by_cases h2 : r.index ≠ prev.index + 1
    · rw [if_pos h2] at h
      simp only [Option.some.injEq] at h
      exact Or.inr h.symm
    rw [if_neg h2] at h
    exact ih r e h

theorem contiguous_cons_iff (first : Record) (rest : List Record) :
    recordsContiguousFrom0 (first :: rest) = true ↔
      (first.index = 0 ∧ ∀ i, i < rest.length →
        (rest.getD i dummyRec).index = first.index + 1 + i) := by
  simp only [recordsContiguousFrom0, List.all_eq_true, List.mem_range,
    beq_iff_eq, List.length_cons]
  constructor
  · intro h
    have h0 : first.index = 0 := by simpa using h 0 (by omega)
    refine ⟨h0, ?_⟩
    intro i hi
    have := h (i + 1) (by omega)
    simp only [List.getD_cons_succ] at this
    rw [this, h0]
    push_cast
    ring
  · rintro ⟨h0, hrest⟩ i hi
    match i with
    | 0 => simpa using h0
    | j + 1 =>
      have hj : j < rest.length := by omega
      simp only [List.getD_cons_succ]
      rw [hrest j hj, h0]
      push_cast
      ring

theorem sameFile_cons_iff (first : Record) (rest : List Record) :
    recordsSameFile (first :: rest) = true
      ↔ ∀ r ∈ rest, r.fileID = first.fileID := by
  simp only [recordsSameFile, List.all_eq_true, beq_iff_eq, List.headD_cons]
  constructor
  · intro h r hr
    exact h r (List.mem_cons_of_mem _ hr)
  · intro h r hr
    rcases List.mem_cons.mp hr with hr0 | hr'
    · rw [hr0]
    · exact h r hr'

theorem make_ok_extract (b : Batcher) (first : Record) (rest : List Record)
    (limit : BatchLimit) (bs : List Batch)
    (h : b.make (first :: rest) limit = Except.ok bs) :
    limit.maxTokens > 0
    ∧ first.index = 0
    ∧ checkSeq first.fileID first rest = none
    ∧ makeLoop b (first :: rest) first.fileID
        (prefArr ((first :: rest).map fun r => b.estimateTokens r.text))
        limit.maxTokens (first :: rest).length ((first :: rest).length + 1)
        0 0 = some bs := by
  rw [Batcher.make] at h
  by_cases h1 : limit.maxTokens ≤ 0
  · rw [if_pos h1] at h; exact absurd h (by simp)
  rw [if_neg h1] at h
  dsimp only at h
  by_cases h2 : first.index ≠ 0
  · rw [if_pos h2] at h; exact absurd h (by simp)
  rw [if_neg h2] at h
  push_neg at h2
  cases hcs : checkSeq first.fileID first rest with
  | some e => rw [hcs] at h; exact absurd h (by simp)
  | none =>
    rw [hcs] at h
    dsimp only at h
    rw [if_neg h1] at h
    cases hml : makeLoop b (first :: rest) first.fileID
        (prefArr ((first :: rest).map fun r => b.estimateTokens r.text))
        limit.maxTokens (first :: rest).length ((first :: rest).length + 1)
        0 0 with
    | none => rw [hml] at h; exact absurd h (by simp)
    | some bs' =>
      rw [hml] at h
      dsimp only at h
      simp only [Except.ok.injEq] at h
      subst h
      exact ⟨by omega, h2, rfl, rfl⟩

theorem vprLoop_shape (fid : FileID) :
    ∀ (cands : List SpanCandidate) (expect : Int)
      (spans : List SpanResult) (fin : Int),
      vprLoop fid expect cands = some (spans, fin) →
      spans = cands.map (fun c =>
        ⟨fid, c.fromIdx, c.toIdx, cloneString c.output, cloneMeta c.meta⟩)
      ∧ fin = expect + cands.length
      ∧ ∀ i, i < cands.length →
          (cands.getD i dummyCand).fromIdx = expect + (i : Int)
          ∧ (cands.getD i dummyCand).toIdx = expect + (i : Int) := by
  intro cands
  induction cands with
  | nil =>
    intro expect spans fin h
    simp only [vprLoop, Option.some.injEq, Prod.mk.injEq] at h
    refine ⟨h.1.symm, by simpa using h.2.symm, ?_⟩
    intro i hi
    simp at hi
  | cons c cs ih =>
    intro expect spans fin h
    simp only [vprLoop] at h
    by_cases h1 : c.fromIdx > c.toIdx
    · rw [if_pos h1] at h; exact absurd h (by simp)
    rw [if_neg h1] at h
    by_cases h2 : c.fromIdx ≠ c.toIdx
    · rw [if_pos h2] at h; exact absurd h (by simp)
    rw [if_neg h2] at h
    by_cases h3 : c.fromIdx ≠ expect
    · rw [if_pos h3] at h; exact absurd h (by simp)
    rw [if_neg h3] at h
    push_neg at h2 h3
    cases hrec : vprLoop fid (expect + 1) cs with
    | none => rw [hrec] at h; exact absurd h (by simp)
    | some p =>
      obtain ⟨spans', fin'⟩ := p
      rw [hrec] at h
      simp only [Option.some.injEq, Prod.mk.injEq] at h
      obtain ⟨hspans, hfin⟩ := h
      obtain ⟨ih1, ih2, ih3⟩ := ih (expect + 1) spans' fin' hrec
      refine ⟨?_, ?_, ?_⟩
      · rw [← hspans, ih1]
        simp
      · rw [← hfin, ih2]
        simp only [List.length_cons]
        push_cast
        ring
      · intro i hi
        match i with
        | 0 =>
          simp only [List.getD_cons_zero]
          constructor
          · simpa using h3
          · rw [← h2]; simpa using h3
        | j + 1 =>
          have hj : j < cs.length := by simpa [Nat.succ_lt_succ_iff] using hi
          have := ih3 j hj
          simp only [List.getD_cons_succ]
          constructor
          · rw [this.1]; push_cast; ring
          · rw [this.2]; push_cast; ring

theorem vprLoop_total (fid : FileID) :
    ∀ (cands : List SpanCandidate) (expect : Int),
      (∀ i, i < cands.length →
        (cands.getD i dummyCand).fromIdx = expect + (i : Int)
        ∧ (cands.getD i dummyCand).toIdx = expect + (i : Int)) →
      ∃ spans, vprLoop fid expect cands
        = some (spans, expect + cands.length) := by
  intro cands
  induction cands with
  | nil =>
    intro expect _
    exact ⟨[], by simp [vprLoop]⟩
  | cons c cs ih =>
    intro expect hpt
    have h0 := hpt 0 (by simp)
    simp only [List.getD_cons_zero, Int.natCast_zero, add_zero] at h0
    obtain ⟨hspans', hrec⟩ := ih (expect + 1) (fun i hi => by
      have := hpt (i + 1) (by simpa [Nat.succ_lt_succ_iff] using hi)
      simp only [List.getD_cons_succ] at this
      constructor
      · rw [this.1]; push_cast; ring
      · rw [this.2]; push_cast; ring)
    refine ⟨⟨fid, c.fromIdx, c.toIdx, cloneString c.output,
      cloneMeta c.meta⟩ :: hspans', ?_⟩
    have harith : expect + 1 + (cs.length : Int)
        = expect + ((c :: cs).length : Int) := by
      simp only [List.length_cons]
      push_cast
      ring
    simp only [vprLoop]
    rw [if_neg (by simp [h0.1, h0.2]), if_neg (by simp [h0.1, h0.2]),
      if_neg (by simp [h0.1]), hrec, harith]

theorem ValidatePerRecord_ok_extract (tgt : Target)
    (cands : List SpanCandidate) (spans : List SpanResult)
    (h : ValidatePerRecord tgt cands = Except.ok spans) :
    ¬ tgt.fromIdx > tgt.toIdx
    ∧ (cands.length : Int) = tgt.toIdx - tgt.fromIdx + 1
    ∧ vprLoop tgt.fileID tgt.fromIdx cands
        = some (spans, tgt.fromIdx + cands.length) := by
  rw [ValidatePerRecord] at h
  by_cases h1 : tgt.fromIdx > tgt.toIdx
  · rw [if_pos h1] at h; exact absurd h (by simp)
  rw [if_neg h1] at h
  by_cases h2 : (cands.length : Int) ≠ tgt.toIdx - tgt.fromIdx + 1
  · rw [if_pos h2] at h; exact absurd h (by simp)
  rw [if_neg h2] at h
  push_neg at h2
  cases hrec : vprLoop tgt.fileID tgt.fromIdx cands with
  | none => rw [hrec] at h; exact absurd h (by simp)
  | some p =>
    obtain ⟨spans', fin'⟩ := p
    rw [hrec] at h
    dsimp only at h
    by_cases h3 : fin' ≠ tgt.toIdx + 1
    · rw [if_pos h3] at h; exact absurd h (by simp)
    rw [if_neg h3] at h
    simp only [Except.ok.injEq] at h
    subst h
    have hsh := vprLoop_shape tgt.fileID cands tgt.fromIdx spans' fin' hrec
    refine ⟨h1, h2, ?_⟩
    rw [hsh.2.1]

/-- C8: `ValidatePerRecord(target, cands)` returns spans without error
iff `target.From ≤ target.To` and `cands` is exactly the sequence of
single-point candidates `[i,i]` for `i = target.From, ..., target.To` in
ascending order; `target.From > target.To` yields `ErrInvalidInput`; on
success the i-th span carries `target.FileID` and deep copies of the
candidate's `Output` and `Meta` (the copies being value-identical). -/
theorem C8_validate_per_record :
    (∀ tgt cands, (∃ spans, ValidatePerRecord tgt cands = Except.ok spans)
        ↔ (tgt.fromIdx ≤ tgt.toIdx ∧ exactPointSeq tgt cands = true))
    ∧ (∀ tgt cands, tgt.fromIdx > tgt.toIdx →
        ValidatePerRecord tgt cands = Except.error VErr.invalidInput)
    ∧ (∀ tgt cands spans, ValidatePerRecord tgt cands = Except.ok spans →
        spans = cands.map fun c =>
          ⟨tgt.fileID, c.fromIdx, c.toIdx, cloneString c.output,
            cloneMeta c.meta⟩)
    ∧ (∀ s, cloneString s = s)
    ∧ (∀ m : Meta, cloneMeta m = m) := by
  have hclone : ∀ s, cloneString s = s := by
    intro s
    by_cases h : s = ""
    · simp [cloneString, h]
    · simp [cloneString, h]
  have hcloneM : ∀ m : Meta, cloneMeta m = m := by
    intro m
    cases m with
    | none => rfl
    | some kvs => simp [cloneMeta, hclone]
  refine ⟨?_, ?_, ?_, hclone, hcloneM⟩
  · intro tgt cands
    constructor
    · rintro ⟨spans, hok⟩
      obtain ⟨h1, h2, h3⟩ := ValidatePerRecord_ok_extract tgt cands spans hok
      have hsh := vprLoop_shape tgt.fileID cands tgt.fromIdx spans _ h3
      refine ⟨by omega, ?_⟩
      simp only [exactPointSeq, Bool.and_eq_true, beq_iff_eq,
        List.all_eq_true, List.mem_range]
      refine ⟨h2, fun i hi => ?_⟩
      have := hsh.2.2 i hi
      exact ⟨this.1, this.2⟩
    · rintro ⟨hle, hseq⟩
      simp only [exactPointSeq, Bool.and_eq_true, beq_iff_eq,
        List.all_eq_true, List.mem_range] at hseq
      obtain ⟨hlen, hpt⟩ := hseq
      obtain ⟨spans, hloop⟩ :=
        vprLoop_total tgt.fileID cands tgt.fromIdx (fun i hi => hpt i hi)
      refine ⟨spans, ?_⟩
      rw [ValidatePerRecord, if_neg (by omega), if_neg (by simp [hlen]),
        hloop]
      dsimp only
      rw [if_neg (by omega)]
  · intro tgt cands h
    rw [ValidatePerRecord, if_pos h]
  · intro tgt cands spans hok
    obtain ⟨h1, h2, h3⟩ := ValidatePerRecord_ok_extract tgt cands spans hok
    exact (vprLoop_shape tgt.fileID cands tgt.fromIdx spans _ h3).1

/-- Witness for `C8_validate_per_record` at concrete inputs: an inverted
target yields `ErrInvalidInput`, and the exact single-point cover of
`[0,1]` is accepted. -/
theorem C8_validate_per_record_witness :
    ValidatePerRecord ⟨"f", 1, 0⟩ [] = Except.error VErr.invalidInput
    ∧ (∃ spans, ValidatePerRecord ⟨"f", 0, 1⟩
        [⟨0, 0, "a", none⟩, ⟨1, 1, "b", none⟩] = Except.ok spans) := by
  constructor
  · exact C8_validate_per_record.2.1 ⟨"f", 1, 0⟩ [] (by decide)
  · exact (C8_validate_per_record.1 ⟨"f", 0, 1⟩
      [⟨0, 0, "a", none⟩, ⟨1, 1, "b", none⟩]).mpr ⟨by decide, by decide⟩

/-- C9: `Classify` is total on errors and, surviving error wrapping
(`Classify` is invariant under `fmt.Errorf %w` wrapping), maps context
cancellation and deadline-exceeded to `cancel` (with precedence over all
other matches), `ErrBudgetExceeded`/`ErrRateLimited` to `budget`,
`ErrResponseInvalid` to `protocol`, `ErrInvariantViolation`/
`ErrInvalidInput`/`ErrSeqInvalid`/`ErrPathInvalid` to `invariant`,
`*os.PathError` values to `io`, `net.Error` values to `network`, and
every other value (including a nil error) to `unknown`; in particular
each sentinel classifies to exactly one non-`unknown` code. -/
theorem C9_classify_total :
    (∀ s e, Classify (some (GoError.wrap s e)) = Classify (some e))
    ∧ Classify none = Code.unknown
    ∧ Classify (some GoError.ctxCanceled) = Code.cancel
    ∧ Classify (some GoError.ctxDeadlineExceeded) = Code.cancel
    ∧ Classify (some GoError.errBudgetExceeded) = Code.budget
    ∧ Classify (some GoError.errRateLimited) = Code.budget
    ∧ Classify (some GoError.errResponseInvalid) = Code.protocol
    ∧ Classify (some GoError.errInvariantViolation) = Code.invariant
    ∧ Classify (some GoError.errInvalidInput) = Code.invariant
    ∧ Classify (some GoError.errSeqInvalid) = Code.invariant
    ∧ Classify (some GoError.errPathInvalid) = Code.invariant
    ∧ Classify (some GoError.pathError) = Code.io
    ∧ Classify (some GoError.netError) = Code.network
    ∧ (∀ msg, Classify (some (GoError.plainErr msg)) = Code.unknown)
    ∧ (∀ e, (GoError.isErr e GoError.ctxCanceled
          || GoError.isErr e GoError.ctxDeadlineExceeded) = true →
          Classify (some e) = Code.cancel) := by
  refine ⟨?_, rfl, rfl, rfl, rfl, rfl, rfl, rfl, rfl, rfl, rfl, rfl, rfl,
    fun msg => rfl, ?_⟩
  · intro s e
    simp [Classify, GoError.isErr, GoError.asPathError, GoError.asNetError]
  · intro e h
    simp only [Classify, h, if_pos]

/-- Witness for the hypothesis-bearing component of `C9_classify_total`:
cancellation takes precedence over a simultaneous budget match. -/
theorem C9_classify_total_witness :
    Classify (some (GoError.join GoError.ctxCanceled GoError.errBudgetExceeded))
      = Code.cancel :=
  C9_classify_total.2.2.2.2.2.2.2.2.2.2.2.2.2.2
    (GoError.join GoError.ctxCanceled GoError.errBudgetExceeded) (by decide)


theorem workerLoop_attempts_le (g : Bool) (env : Nat → AttemptEnv) :
    ∀ (fuel attempts attempt : Nat) (lastErr : Option GoError) (used : Nat),
      attempts - attempt ≤ fuel →
      (workerLoop g env attempts attempt lastErr used).attemptsUsed
        ≤ used + (attempts - attempt) := by
  intro fuel
  induction fuel with
  | zero =>
    intro attempts attempt lastErr used hf
    rw [workerLoop]
    have h : ¬ attempt < attempts := by omega
    rw [if_neg h]
    exact Nat.le_add_right used _
  | succ n ih =>
    intro attempts attempt lastErr used hf
    rw [workerLoop]
    by_cases hlt : attempt < attempts
    · rw [if_pos hlt]
      split
      · show used + 1 ≤ used + (attempts - attempt)
        omega
      · split
        · split
          · rename_i e _ _
            have h1 := ih attempts (attempt + 1) (some e) (used + 1) (by omega)
            show (workerLoop g env attempts (attempt + 1) (some e)
              (used + 1)).attemptsUsed ≤ used + (attempts - attempt)
            omega
          · show used + 1 ≤ used + (attempts - attempt)
            omega
        · split
          · split
            · rename_i e _ _
              have h1 := ih attempts (attempt + 1) (some e) (used + 1) (by omega)
              show (workerLoop g env attempts (attempt + 1) (some e)
                (used + 1)).attemptsUsed ≤ used + (attempts - attempt)
              omega
            · show used + 1 ≤ used + (attempts - attempt)
              omega
          · show used + 1 ≤ used + (attempts - attempt)
            omega
    · rw [if_neg hlt]
      exact Nat.le_add_right used _

theorem workerLoop_sleep_agnostic (g : Bool) (env env' : Nat → AttemptEnv)
    (hag : ∀ k, (env k).gateResult = (env' k).gateResult
        ∧ (env k).invokeResult = (env' k).invokeResult
        ∧ (env k).decodeResult = (env' k).decodeResult) :
    ∀ (fuel attempts attempt : Nat) (lastErr : Option GoError) (used : Nat),
      attempts - attempt ≤ fuel →
      workerLoop g env attempts attempt lastErr used
        = workerLoop g env' attempts attempt lastErr used := by
  intro fuel
  induction fuel with
  | zero =>
    intro attempts attempt lastErr used hf
    rw [workerLoop, workerLoop]
    have h : ¬ attempt < attempts := by omega
    rw [if_neg h, if_neg h]
  | succ n ih =>
    intro attempts attempt lastErr used hf
    rw [workerLoop, workerLoop]
    by_cases hlt : attempt < attempts
    · rw [if_pos hlt, if_pos hlt]
      obtain ⟨h1, h2, h3⟩ := hag attempt
      rw [h1, h2, h3]
      cases hgate : (if g = true then (env' attempt).gateResult else none) with
      | some e => rfl
      | none =>
        cases hi : (env' attempt).invokeResult with
        | error e =>
          by_cases hr :
              (decide (attempt + 1 < attempts) && shouldRetryInvoke (some e)) = true
          · simp only [if_pos hr]
            exact ih attempts (attempt + 1) (some e) (used + 1) (by omega)
          · simp only [if_neg hr]
        | ok r =>
          cases hd : (env' attempt).decodeResult with
          | error e =>
            by_cases hr :
                (decide (attempt + 1 < attempts) && shouldRetryDecode (some e)) = true
            · simp only [if_pos hr]
              exact ih attempts (attempt + 1) (some e) (used + 1) (by omega)
            · simp only [if_neg hr]
          | ok spans => rfl
    · rw [if_neg hlt, if_neg hlt]

theorem workerLoop_invoke_step (g : Bool) (env : Nat → AttemptEnv)
    (attempts attempt : Nat) (lastErr : Option GoError) (used : Nat)
    (e : GoError) (hlt : attempt < attempts)
    (hg : (if g = true then (env attempt).gateResult else none) = none)
    (hi : (env attempt).invokeResult = Except.error e) :
    workerLoop g env attempts attempt lastErr used
      = if (decide (attempt + 1 < attempts) && shouldRetryInvoke (some e)) = true
        then workerLoop g env attempts (attempt + 1) (some e) (used + 1)
        else ⟨.error (some e), used + 1⟩ := by
  rw [workerLoop, if_pos hlt, hg, hi]

theorem workerLoop_decode_step (g : Bool) (env : Nat → AttemptEnv)
    (attempts attempt : Nat) (lastErr : Option GoError) (used : Nat)
    (r : Raw) (e : GoError) (hlt : attempt < attempts)
    (hg : (if g = true then (env attempt).gateResult else none) = none)
    (hi : (env attempt).invokeResult = Except.ok r)
    (hd : (env attempt).decodeResult = Except.error e) :
    workerLoop g env attempts attempt lastErr used
      = if (decide (attempt + 1 < attempts) && shouldRetryDecode (some e)) = true
        then workerLoop g env attempts (attempt + 1) (some e) (used + 1)
        else ⟨.error (some e), used + 1⟩ := by
  rw [workerLoop, if_pos hlt, hg, hi, hd]

theorem workerLoop_gate_step (g : Bool) (env : Nat → AttemptEnv)
    (attempts attempt : Nat) (lastErr : Option GoError) (used : Nat)
    (e : GoError) (hlt : attempt < attempts)
    (hg : (if g = true then (env attempt).gateResult else none) = some e) :
    workerLoop g env attempts attempt lastErr used
      = ⟨.error (some e), used + 1⟩ := by
  rw [workerLoop, if_pos hlt, hg]

/-- C4 (amended): each batch is attempted at most `maxRetries + 1` times;
after a failed LLM invocation a further attempt is decided exactly by
`shouldRetryInvoke`, which holds iff the error classifies as `budget` or
`network`; after a failed decode, exactly by `shouldRetryDecode`, which
holds iff the error classifies as `protocol`; errors classified `cancel`,
`invariant`, `io` or `unknown` are never retried; before any retry the
worker sleeps up to 200 ms, but the sleep's result is discarded
(`_ = sleepWithCtx(...)`), so cancellation during the sleep does not make
the worker return `ctx.Err()`: the job outcome is independent of whether
the context gets cancelled during any pre-retry sleep. -/
theorem C4_retry_policy :
    (∀ (g : Bool) (env : Nat → AttemptEnv) (maxRetries : Nat),
        (workerJob g env maxRetries).attemptsUsed ≤ maxRetries + 1)
    ∧ (∀ e, shouldRetryInvoke (some e)
        = (Classify (some e) == Code.budget || Classify (some e) == Code.network))
    ∧ (∀ e, shouldRetryDecode (some e) = (Classify (some e) == Code.protocol))
    ∧ (∀ e, (Classify (some e) = Code.cancel ∨ Classify (some e) = Code.invariant
          ∨ Classify (some e) = Code.io ∨ Classify (some e) = Code.unknown) →
        shouldRetryInvoke (some e) = false ∧ shouldRetryDecode (some e) = false)
    ∧ (∀ (g : Bool) (env env' : Nat → AttemptEnv) (maxRetries : Nat),
        (∀ k, (env k).gateResult = (env' k).gateResult
            ∧ (env k).invokeResult = (env' k).invokeResult
            ∧ (env k).decodeResult = (env' k).decodeResult) →
        workerJob g env maxRetries = workerJob g env' maxRetries) := by
  refine ⟨?_, ?_, ?_, ?_, ?_⟩
  · intro g env maxRetries
    have h := workerLoop_attempts_le g env (maxRetries + 1) (maxRetries + 1) 0
      none 0 (le_refl _)
    simpa [workerJob] using h
  · intro e
    cases h : Classify (some e) <;> simp [shouldRetryInvoke, h]
  · intro e
    cases h : Classify (some e) <;> simp [shouldRetryDecode, h]
  · intro e h
    rcases h with h | h | h | h <;>
      simp [shouldRetryInvoke, shouldRetryDecode, h]
  · intro g env env' maxRetries hag
    exact workerLoop_sleep_agnostic g env env' hag (maxRetries + 1)
      (maxRetries + 1) 0 none 0 (le_refl _)

/-- Witness for `C4_retry_policy` at concrete inputs: an
`ErrInvalidInput` (invariant-classified) error is never retried, and two
environments differing only in the cancellation-during-sleep flags yield
identical job outcomes. -/
theorem C4_retry_policy_witness :
    (shouldRetryInvoke (some GoError.errInvalidInput) = false
      ∧ shouldRetryDecode (some GoError.errInvalidInput) = false)
    ∧ workerJob false retryEnvCE 1
        = workerJob false
            (fun k => ⟨(retryEnvCE k).gateResult, (retryEnvCE k).invokeResult,
              (retryEnvCE k).decodeResult, false⟩) 1 := by
  constructor
  · exact C4_retry_policy.2.2.2.1 GoError.errInvalidInput
      (Or.inr (Or.inl (by decide)))
  · exact C4_retry_policy.2.2.2.2 false retryEnvCE _ 1 (fun k => ⟨rfl, rfl, rfl⟩)

/-- C4 counterexample: the claim "the worker ... returns `ctx.Err()` if
the context is cancelled during that sleep" is false.  Here attempt 0's
LLM invocation fails with a (retryable) network error, the context is
cancelled during the 200 ms pre-retry sleep, and yet the worker proceeds
with attempt 1 and returns that attempt's successful spans after 2
attempts, because `pipeline.Run` discards the result of `sleepWithCtx`. -/
theorem C4_counterexample :
    workerJob false retryEnvCE 1
      = ⟨Except.ok [⟨"f", 0, 0, "out", none⟩], 2⟩ := by
  rw [workerJob]
  rw [workerLoop_invoke_step false retryEnvCE 2 0 none 0 GoError.netError
    (by norm_num) (by simp [retryEnvCE]) (by simp [retryEnvCE])]
  rw [if_pos (by decide)]
  rw [workerLoop]
  simp [retryEnvCE]


/-- C1: for every successful `Make(ctx, records, limit)` on non-empty
records that share one `FileID`, are contiguous in `Index` from 0 to
`N-1`, and have `limit.MaxTokens > 0`, the target ranges
`[TargetFrom, TargetTo]` of the returned batches partition `[0, N-1]`
with no overlap and no gap (`targetsChain`), and `BatchIndex` values are
exactly 0, 1, 2, ... in emission order (`batchIdxFrom`). -/
theorem C1_batcher_partition (b : Batcher) (records : List Record)
    (limit : BatchLimit) (bs : List Batch)
    (hok : b.make records limit = Except.ok bs)
    (hne : records ≠ [])
    (hidx : recordsContiguousFrom0 records = true)
    (hsame : recordsSameFile records = true)
    (hmt : limit.maxTokens > 0) :
    targetsChain bs 0 (records.length : Int) = true
    ∧ batchIdxFrom bs 0 = true := by
  cases records with
  | nil => exact absurd rfl hne
  | cons first rest =>
    obtain ⟨_, h0, hcs, hml⟩ := make_ok_extract b first rest limit bs hok
    simp only [recordsContiguousFrom0, List.all_eq_true, List.mem_range,
      beq_iff_eq] at hidx
    have hspec := makeLoop_spec b (first :: rest) first.fileID
      limit.maxTokens (fun i hi => hidx i hi)
      ((first :: rest).length + 1) 0 0 bs (by omega) (by omega) hml
    exact ⟨by simpa using hspec.1, hspec.2.1⟩

/-- Witness for `C1_batcher_partition`: three contiguous records, radius
1, budget 3 produce a single batch targeting `[0,2]`. -/
theorem C1_batcher_partition_witness :
    targetsChain
      [⟨"f", 0, [⟨0, "f", "abcd", none⟩, ⟨1, "f", "abcd", none⟩,
        ⟨2, "f", "abcd", none⟩], 0, 2⟩] 0
      (([⟨0, "f", "abcd", none⟩, ⟨1, "f", "abcd", none⟩,
        ⟨2, "f", "abcd", none⟩] : List Record).length : Int) = true
    ∧ batchIdxFrom
      [⟨"f", 0, [⟨0, "f", "abcd", none⟩, ⟨1, "f", "abcd", none⟩,
        ⟨2, "f", "abcd", none⟩], 0, 2⟩] 0 = true :=
  C1_batcher_partition (Batcher.new (some ⟨1, 0, 0⟩))
    [⟨0, "f", "abcd", none⟩, ⟨1, "f", "abcd", none⟩, ⟨2, "f", "abcd", none⟩]
    ⟨3⟩
    [⟨"f", 0, [⟨0, "f", "abcd", none⟩, ⟨1, "f", "abcd", none⟩,
      ⟨2, "f", "abcd", none⟩], 0, 2⟩]
    (by decide) (by decide) (by decide) (by decide) (by decide)

/-- C6: every batch emitted by a successful `Make` has window cost --
left context plus target plus right context, i.e. the sum of
`estimateTokens` over its whole `Records` slice -- at most
`limit.MaxTokens`. -/
theorem C6_batcher_budget (b : Batcher) (records : List Record)
    (limit : BatchLimit) (bs : List Batch)
    (hok : b.make records limit = Except.ok bs) :
    ∀ bb ∈ bs, (batchCost b bb : Int) ≤ limit.maxTokens := by
  cases records with
  | nil =>
    by_cases h1 : limit.maxTokens ≤ 0
    · rw [Batcher.make, if_pos h1] at hok
      exact absurd hok (by simp)
    · rw [Batcher.make, if_neg h1] at hok
      simp only [Except.ok.injEq] at hok
      subst hok
      simp
  | cons first rest =>
    obtain ⟨hmt, h0, hcs, hml⟩ := make_ok_extract b first rest limit bs hok
    obtain ⟨hf, hi⟩ := checkSeq_none_facts first.fileID rest first hcs
    have hidx : ∀ i, i < (first :: rest).length →
        ((first :: rest).getD i dummyRec).index = (i : Int) := by
      intro i hilt
      match i with
      | 0 => simpa using h0
      | j + 1 =>
        have hj : j < rest.length := by simpa using hilt
        have := hi j hj
        simp only [List.getD_cons_succ]
        rw [this, h0]
        push_cast
        ring
    exact (makeLoop_spec b (first :: rest) first.fileID limit.maxTokens hidx
      ((first :: rest).length + 1) 0 0 bs (by omega) (by omega) hml).2.2

/-- Witness for `C6_batcher_budget`: the single batch of the concrete
run costs 3 tokens, within the budget of 3. -/
theorem C6_batcher_budget_witness :
    (batchCost (Batcher.new (some ⟨1, 0, 0⟩))
      ⟨"f", 0, [⟨0, "f", "abcd", none⟩, ⟨1, "f", "abcd", none⟩,
        ⟨2, "f", "abcd", none⟩], 0, 2⟩ : Int) ≤ (3 : Int) :=
  C6_batcher_budget (Batcher.new (some ⟨1, 0, 0⟩))
    [⟨0, "f", "abcd", none⟩, ⟨1, "f", "abcd", none⟩, ⟨2, "f", "abcd", none⟩]
    ⟨3⟩
    [⟨"f", 0, [⟨0, "f", "abcd", none⟩, ⟨1, "f", "abcd", none⟩,
      ⟨2, "f", "abcd", none⟩], 0, 2⟩]
    (by decide)
    ⟨"f", 0, [⟨0, "f", "abcd", none⟩, ⟨1, "f", "abcd", none⟩,
      ⟨2, "f", "abcd", none⟩], 0, 2⟩
    (by decide)

/-- C5 counterexample: the claim says `Make` fails with `InvalidInput`
when records are empty; in fact `Make` on empty records (with a positive
budget) returns a nil batch list and a nil error. -/
theorem C5_counterexample :
    (Batcher.new none).make [] ⟨10⟩ = Except.ok [] := by decide

/-- C5 (amended): `Make` fails when `maxTokens ≤ 0`; empty records yield
an empty batch list and no error; non-empty records that are not
contiguous in `Index` starting at 0 or that cross files yield one of the
(plain, non-sentinel) validation errors; and on valid non-empty records
the only possible failure is the error raised when no single target
record fits within the budget along with its context. -/
theorem C5_make_errors :
    (∀ (b : Batcher) (records : List Record) (limit : BatchLimit),
        limit.maxTokens ≤ 0 →
        b.make records limit = Except.error MakeErr.maxTokensNonPos)
    ∧ (∀ (b : Batcher) (limit : BatchLimit), limit.maxTokens > 0 →
        b.make [] limit = Except.ok [])
    ∧ (∀ (b : Batcher) (records : List Record) (limit : BatchLimit),
        limit.maxTokens > 0 → records ≠ [] →
        ¬(recordsContiguousFrom0 records = true
          ∧ recordsSameFile records = true) →
        ∃ e, b.make records limit = Except.error e
          ∧ (e = MakeErr.firstIndexNonZero ∨ e = MakeErr.fileIDMismatch
            ∨ e = MakeErr.indexNotContiguous))
    ∧ (∀ (b : Batcher) (records : List Record) (limit : BatchLimit)
        (e : MakeErr),
        limit.maxTokens > 0 →
        recordsContiguousFrom0 records = true →
        recordsSameFile records = true →
        b.make records limit = Except.error e →
        e = MakeErr.singleTargetNoFit) := by
  refine ⟨?_, ?_, ?_, ?_⟩
  · intro b records limit h
    rw [Batcher.make.eq_def, if_pos h]
  · intro b limit h
    rw [Batcher.make, if_neg (by omega)]
  · intro b records limit hmt hne hbad
    cases records with
    | nil => exact absurd rfl hne
    | cons first rest =>
      by_cases h2 : first.index ≠ 0
      · refine ⟨MakeErr.firstIndexNonZero, ?_, Or.inl rfl⟩
        rw [Batcher.make, if_neg (by omega)]
        dsimp only
        rw [if_pos h2]
      · push_neg at h2
        cases hcs : checkSeq first.fileID first rest with
        | some e =>
          refine ⟨e, ?_, ?_⟩
          · rw [Batcher.make, if_neg (by omega)]
            dsimp only
            rw [if_neg (by omega), hcs]
          · rcases checkSeq_some_cases first.fileID rest first e hcs with h | h
            · exact Or.inr (Or.inl h)
            · exact Or.inr (Or.inr h)
        | none =>
          exfalso
          apply hbad
          obtain ⟨hfids, hidxs⟩ := checkSeq_none_facts first.fileID rest
            first hcs
          constructor
          · exact (contiguous_cons_iff first rest).mpr ⟨h2, fun i hi => by
              rw [hidxs i hi, h2]⟩
          · exact (sameFile_cons_iff first rest).mpr hfids
  · intro b records limit e hmt hcont hsame herr
    cases records with
    | nil =>
      rw [Batcher.make, if_neg (by omega)] at herr
      exact absurd herr (by simp)
    | cons first rest =>
      obtain ⟨h0, hrest⟩ := (contiguous_cons_iff first rest).mp hcont
      have hfids := (sameFile_cons_iff first rest).mp hsame
      have hcs : checkSeq first.fileID first rest = none :=
        checkSeq_none_of first.fileID rest first hfids hrest
      rw [Batcher.make, if_neg (by omega)] at herr
      dsimp only at herr
      rw [if_neg (by omega), hcs] at herr
      dsimp only at herr
      rw [if_neg (by omega)] at herr
      cases hml : makeLoop b (first :: rest) first.fileID
          (prefArr ((first :: rest).map fun r => b.estimateTokens r.text))
          limit.maxTokens (first :: rest).length
          ((first :: rest).length + 1) 0 0 with
      | none =>
        rw [hml] at herr
        dsimp only at herr
        simp only [Except.error.injEq] at herr
        exact herr.symm
      | some bs =>
        rw [hml] at herr
        exact absurd herr (by simp)

/-- Witness for `C5_make_errors` at concrete inputs: a non-positive
budget is rejected, and a single record with first index 5 (not
contiguous from 0) is rejected with a validation error. -/
theorem C5_make_errors_witness :
    (Batcher.new none).make [⟨0, "f", "a", none⟩] ⟨0⟩
      = Except.error MakeErr.maxTokensNonPos
    ∧ ∃ e, (Batcher.new none).make [⟨5, "f", "a", none⟩] ⟨10⟩
        = Except.error e
        ∧ (e = MakeErr.firstIndexNonZero ∨ e = MakeErr.fileIDMismatch
          ∨ e = MakeErr.indexNotContiguous) := by
  constructor
  · exact C5_make_errors.1 (Batcher.new none) [⟨0, "f", "a", none⟩] ⟨0⟩
      (by decide)
  · exact C5_make_errors.2.2.1 (Batcher.new none) [⟨5, "f", "a", none⟩] ⟨10⟩
      (by decide) (by decide) (by decide)


/-! ### C3: rate-gate window safety -/

/-- Behaviour of `bucket.refill` for an enabled bucket with a monotone
clock: cap/rate preserved, timestamp advanced to `now`, level stays in
`[0, cap]` and grows by at most the elapsed time times the rate. -/
theorem refill_spec (b : Bucket) (t : ℚ) (hcap : 0 < b.cap) (hlast : b.last ≤ t)
    (hrate : 0 ≤ b.rate) (hlvl0 : 0 ≤ b.level) (hlvl1 : b.level ≤ (b.cap : ℚ)) :
    (b.refill t).cap = b.cap ∧ (b.refill t).rate = b.rate ∧ (b.refill t).last = t
    ∧ 0 ≤ (b.refill t).level ∧ (b.refill t).level ≤ (b.cap : ℚ)
    ∧ (b.refill t).level ≤ b.level + (t - b.last) * b.rate := by
  have henb : b.enabled = true := by
    simp only [Bucket.enabled, gt_iff_lt, decide_eq_true_eq]
    exact hcap
  have hnotlt : ¬ (t < b.last) := not_lt.mpr hlast
  rw [Bucket.refill]
  simp only [henb, not_true_eq_false, if_false, hnotlt, Bool.false_eq_true]
  by_cases hdt : t - b.last ≤ 0
  · have ht : t = b.last := by linarith
    simp only [if_pos hdt]
    refine ⟨trivial, trivial, ht.symm, hlvl0, hlvl1, by rw [ht]; simp⟩
  · simp only [if_neg hdt]
    have hdt2 : 0 < t - b.last := by linarith
    by_cases hcapd : b.level + (t - b.last) * b.rate > (b.cap : ℚ)
    · simp only [if_pos hcapd]
      refine ⟨trivial, trivial, trivial, ?_, le_refl _, le_of_lt hcapd⟩
      exact_mod_cast le_of_lt hcap
    · simp only [if_neg hcapd]
      refine ⟨trivial, trivial, trivial, ?_, le_of_not_lt hcapd, le_refl _⟩
      nlinarith

theorem canTake_ge (b : Bucket) (n : Int) (hcap : 0 < b.cap) (hn : 0 < n)
    (hcan : b.canTake n = true) : (n : ℚ) ≤ b.level := by
  have henb : b.enabled = true := by
    simp only [Bucket.enabled, gt_iff_lt, decide_eq_true_eq]
    exact hcap
  rw [Bucket.canTake] at hcan
  simp only [henb, not_true_eq_false, if_false, Bool.false_eq_true] at hcan
  rw [if_neg (by omega : ¬ n ≤ 0)] at hcan
  simpa using hcan

theorem take_spec (b : Bucket) (n : Int) (hcap : 0 < b.cap) (hn : 0 ≤ n)
    (hcan : b.canTake n = true) :
    (b.take n).cap = b.cap ∧ (b.take n).rate = b.rate ∧ (b.take n).last = b.last
    ∧ (b.take n).level = b.level - (n : ℚ) := by
  have henb : b.enabled = true := by
    simp only [Bucket.enabled, gt_iff_lt, decide_eq_true_eq]
    exact hcap
  rw [Bucket.take]
  by_cases hn0 : n ≤ 0
  · have hz : n = 0 := le_antisymm hn0 hn
    rw [if_pos (Or.inr hn0)]
    refine ⟨rfl, rfl, rfl, by rw [hz]; simp⟩
  · have hge : (n : ℚ) ≤ b.level := canTake_ge b n hcap (by omega) hcan
    rw [if_neg (by simp [henb, hn0])]
    refine ⟨rfl, rfl, rfl, ?_⟩
    rw [if_neg (by linarith)]

theorem runBucket_inv (cap : Int) (a : ℚ) :
    ∀ (evs : List (ℚ × Int)) (b b' : Bucket) (S : Int),
      b.cap = cap → 0 < cap → b.rate = (cap : ℚ) / 60 →
      0 ≤ b.level → b.level ≤ (cap : ℚ) →
      ((S : ℚ) + b.level ≤ (cap : ℚ) + (max (b.last - a) 0) * b.rate) →
      (S = 0 ∨ a ≤ b.last) →
      b.last ≤ a + 60 →
      (∀ ev ∈ evs, (a ≤ ev.1 ∧ ev.1 ≤ a + 60) ∧ 0 ≤ ev.2) →
      List.Chain' (· ≤ ·) (b.last :: evs.map Prod.fst) →
      runBucket b evs = some b' →
      ((S : ℚ) + (((evs.map Prod.snd).sum : Int) : ℚ) + b'.level
          ≤ (cap : ℚ) + (max (b'.last - a) 0) * b'.rate)
        ∧ 0 ≤ b'.level ∧ b'.last ≤ a + 60 ∧ b'.rate = (cap : ℚ) / 60 := by
  intro evs
  induction evs with
  | nil =>
    intro b b' S h1 h2 h3 h4 h5 h6 h7 h8 h9 h10 hrun
    rw [runBucket] at hrun
    cases hrun
    exact ⟨by simpa using h6, h4, h8, h3⟩
  | cons ev rest ih =>
    intro b b' S h1 h2 h3 h4 h5 h6 h7 h8 h9 h10 hrun
    obtain ⟨t, n⟩ := ev
    rw [runBucket] at hrun
    by_cases hcan : (b.refill t).canTake n = true
    swap
    · rw [if_neg hcan] at hrun; exact absurd hrun (by simp)
    rw [if_pos hcan] at hrun
    have hlt : b.last ≤ t := by
      rcases List.chain'_cons.mp h10 with ⟨h, _⟩
      simpa using h
    have hwt : (a ≤ t ∧ t ≤ a + 60) ∧ 0 ≤ n := h9 (t, n) (by simp)
    have hcq : (0 : ℚ) ≤ (cap : ℚ) := by exact_mod_cast h2.le
    have hrate0 : 0 ≤ b.rate := by
      rw [h3]
      linarith
    obtain ⟨rc, rr, rl, rv0, rv1, rgrow⟩ :=
      refill_spec b t (by omega) hlt hrate0 h4 (by rw [h1]; exact h5)
    have hinv1 : (S : ℚ) + (b.refill t).level
        ≤ (cap : ℚ) + (max (t - a) 0) * b.rate := by
      rcases h7 with hS0 | hal
      · rw [hS0]
        push_cast
        have hmr : (0 : ℚ) ≤ max (t - a) 0 * b.rate :=
          mul_nonneg (le_max_right _ _) hrate0
        have h1q : ((b.cap : Int) : ℚ) = (cap : ℚ) := by rw [h1]
        linarith [rv1]
      · have hmax1 : max (b.last - a) 0 = b.last - a := by
          rw [max_eq_left]
          linarith
        have hmax2 : max (t - a) 0 = t - a := by
          rw [max_eq_left]
          linarith [hwt.1.1]
        rw [hmax2]
        rw [hmax1] at h6
        calc (S : ℚ) + (b.refill t).level
            ≤ (S : ℚ) + (b.level + (t - b.last) * b.rate) := by linarith
          _ ≤ (cap : ℚ) + (b.last - a) * b.rate + (t - b.last) * b.rate := by
              linarith
          _ = (cap : ℚ) + (t - a) * b.rate := by ring
    obtain ⟨tc, tr, tl, tv⟩ :=
      take_spec (b.refill t) n (by omega) hwt.2 hcan
    have hstep := ih ((b.refill t).take n) b' (S + n)
      (by rw [tc, rc, h1]) h2 (by rw [tr, rr, h3])
      (by
        rw [tv]
        by_cases hn0 : n ≤ 0
        · have : n = 0 := le_antisymm hn0 hwt.2
          simp [this, rv0]
        · have := canTake_ge (b.refill t) n (by omega) (by omega) hcan
          linarith)
      (by
        rw [tv]
        have h1q : ((b.cap : Int) : ℚ) = (cap : ℚ) := by rw [h1]
        have hnq : (0 : ℚ) ≤ (n : ℚ) := by exact_mod_cast hwt.2
        linarith [rv1])
      (by
        rw [tv, tl, rl, tr, rr]
        push_cast
        linarith)
      (Or.inr (by rw [tl, rl]; exact hwt.1.1))
      (by rw [tl, rl]; exact hwt.1.2)
      (fun e he => h9 e (List.mem_cons_of_mem _ he))
      (by
        rw [tl, rl]
        rcases List.chain'_cons.mp h10 with ⟨_, hch⟩
        simpa using hch)
      hrun
    refine ⟨?_, hstep.2.1, hstep.2.2.1, hstep.2.2.2⟩
    have hs1 := hstep.1
    simp only [List.map_cons, List.sum_cons]
    push_cast at hs1 ⊢
    linarith

theorem runBucket_total (cap : Int) (a t0 : ℚ) (evs : List (ℚ × Int)) (b' : Bucket)
    (hcap : 0 < cap) (ht0 : t0 ≤ a + 60)
    (hevs : ∀ ev ∈ evs, (a ≤ ev.1 ∧ ev.1 ≤ a + 60) ∧ 0 ≤ ev.2)
    (hchain : List.Chain' (· ≤ ·) (t0 :: evs.map Prod.fst))
    (hrun : runBucket (newBucket cap t0) evs = some b') :
    (evs.map Prod.snd).sum ≤ 2 * cap := by
  have hcq : (0 : ℚ) < (cap : ℚ) := by exact_mod_cast hcap
  have hnb : newBucket cap t0 = ⟨cap, (cap : ℚ), (cap : ℚ) / 60, t0⟩ := by
    rw [newBucket, if_neg (by omega)]
  have hinv := runBucket_inv cap a evs (newBucket cap t0) b' 0
    (by rw [hnb]) hcap (by rw [hnb]) (by rw [hnb]; positivity)
    (by rw [hnb]) (by rw [hnb]; push_cast
                      have : (0 : ℚ) ≤ max (t0 - a) 0 * ((cap : ℚ) / 60) :=
                        mul_nonneg (le_max_right _ _) (by positivity)
                      linarith)
    (Or.inl rfl) (by rw [hnb]; exact ht0) hevs (by rw [hnb]; exact hchain) hrun
  obtain ⟨hsum, hlvl, hlast, hrate⟩ := hinv
  have hmax : max (b'.last - a) 0 ≤ 60 := max_le (by linarith) (by norm_num)
  have hmul : max (b'.last - a) 0 * b'.rate ≤ 60 * ((cap : ℚ) / 60) := by
    rw [hrate]
    exact mul_le_mul_of_nonneg_right hmax (by positivity)
  have h60 : (60 : ℚ) * ((cap : ℚ) / 60) = (cap : ℚ) := by ring
  have : (((evs.map Prod.snd).sum : Int) : ℚ) ≤ 2 * (cap : ℚ) := by
    push_cast at hsum ⊢
    linarith
  exact_mod_cast this

theorem runAdmitted_proj :
    ∀ (evs : List (ℚ × Int × Int)) (e e' : Entry),
      runAdmitted e evs = some e' →
      runBucket e.req (evs.map fun ev => (ev.1, ev.2.1)) = some e'.req
      ∧ runBucket e.tok (evs.map fun ev => (ev.1, ev.2.2)) = some e'.tok := by
  intro evs
  induction evs with
  | nil =>
    intro e e' h
    rw [runAdmitted] at h
    cases h
    exact ⟨rfl, rfl⟩
  | cons ev rest ih =>
    intro e e' h
    obtain ⟨t, rq, tk⟩ := ev
    rw [runAdmitted, tryAdmit] at h
    by_cases hc : ((e.req.refill t).canTake rq && (e.tok.refill t).canTake tk) = true
    · rw [if_pos hc] at h
      dsimp only at h
      obtain ⟨hcr, hct⟩ := (Bool.and_eq_true _ _).mp hc
      have hih := ih _ _ h
      constructor
      · rw [List.map_cons, runBucket, if_pos hcr]
        exact hih.1
      · rw [List.map_cons, runBucket, if_pos hct]
        exact hih.2
    · rw [if_neg hc] at h
      exact absurd h (by simp)

/-- **C3** (amended).  For a gate key with `rpm > 0` and `tpm > 0`, any
trace of successful `Wait` admissions whose times all lie in one
60-second window `[a, a + 60]` (the key created at `t0 ≤ a + 60`, clock
monotone) admits at most `2 * rpm` requests and `2 * tpm` tokens: burst
capacity plus refill.  The claim's bound of `rpm` / `tpm` is refuted by
`C3_counterexample`. -/
theorem C3_gate_safety (lim : Limits) (t0 a : ℚ) (evs : List (ℚ × Int × Int))
    (e' : Entry)
    (hrpm : 0 < lim.rpm) (htpm : 0 < lim.tpm)
    (hvalid : ∀ ev ∈ evs, 1 ≤ ev.2.1 ∧ 0 ≤ ev.2.2)
    (hwin : ∀ ev ∈ evs, a ≤ ev.1 ∧ ev.1 ≤ a + 60)
    (ht0 : t0 ≤ a + 60)
    (hchain : List.Chain' (· ≤ ·) (t0 :: evs.map Prod.fst))
    (hrun : runAdmitted (newEntry lim t0) evs = some e') :
    reqSum evs ≤ 2 * lim.rpm ∧ tokSum evs ≤ 2 * lim.tpm := by
  have hproj := runAdmitted_proj evs _ _ hrun
  have hreq : (newEntry lim t0).req = newBucket lim.rpm t0 := by
    rw [newEntry]
    exact if_pos hrpm
  have htok : (newEntry lim t0).tok = newBucket lim.tpm t0 := by
    rw [newEntry]
    exact if_pos htpm
  rw [hreq] at hproj
  rw [htok] at hproj
  constructor
  · have := runBucket_total lim.rpm a t0 (evs.map fun ev => (ev.1, ev.2.1))
      e'.req hrpm ht0
      (by
        intro ev hev
        obtain ⟨x, hx, hxe⟩ := List.mem_map.mp hev
        subst hxe
        exact ⟨hwin x hx, by have := (hvalid x hx).1; omega⟩)
      (by
        have hmm : (evs.map fun ev => (ev.1, ev.2.1)).map Prod.fst
            = evs.map Prod.fst := by
          rw [List.map_map]
          rfl
        rw [hmm]
        exact hchain)
      hproj.1
    simpa [reqSum, List.map_map, Function.comp] using this
  · have := runBucket_total lim.tpm a t0 (evs.map fun ev => (ev.1, ev.2.2))
      e'.tok htpm ht0
      (by
        intro ev hev
        obtain ⟨x, hx, hxe⟩ := List.mem_map.mp hev
        subst hxe
        exact ⟨hwin x hx, (hvalid x hx).2⟩)
      (by
        have hmm : (evs.map fun ev => (ev.1, ev.2.2)).map Prod.fst
            = evs.map Prod.fst := by
          rw [List.map_map]
          rfl
        rw [hmm]
        exact hchain)
      hproj.2
    simpa [tokSum, List.map_map, Function.comp] using this

theorem C3_gate_safety_witness :
    reqSum [((0 : ℚ), (1 : Int), (1 : Int))] ≤ 2 * 2
    ∧ tokSum [((0 : ℚ), (1 : Int), (1 : Int))] ≤ 2 * 2 :=
  C3_gate_safety ⟨2, 2, 0⟩ 0 0 [(0, 1, 1)]
    ⟨⟨2, 2, 0⟩, ⟨2, 1, (2 : ℚ) / 60, 0⟩, ⟨2, 1, (2 : ℚ) / 60, 0⟩⟩
    (by norm_num) (by norm_num) (by norm_num) (by norm_num) (by norm_num)
    (by simp)
    (by norm_num [runAdmitted, tryAdmit, newEntry, newBucket, Bucket.refill,
      Bucket.canTake, Bucket.take, Bucket.enabled])

/-- The claimed per-window bounds `reqSum ≤ rpm`, `tokSum ≤ tpm` fail:
with `rpm = tpm = 2` and the key created at time 0, the admissions of
`gateEvsCE` (times 0, 0, 30 -- all within the window `[0, 60]`, clock
monotone, asks valid) all succeed, yet 3 requests and 3 tokens are
admitted. -/
theorem C3_counterexample :
    (runAdmitted (newEntry ⟨2, 2, 0⟩ 0) gateEvsCE).isSome = true
    ∧ (∀ ev ∈ gateEvsCE, 1 ≤ ev.2.1 ∧ 0 ≤ ev.2.2)
    ∧ (∀ ev ∈ gateEvsCE, 0 ≤ ev.1 ∧ ev.1 ≤ 0 + 60)
    ∧ List.Chain' (· ≤ ·) ((0 : ℚ) :: gateEvsCE.map Prod.fst)
    ∧ ¬ (reqSum gateEvsCE ≤ 2)
    ∧ ¬ (tokSum gateEvsCE ≤ 2) := by
  refine ⟨?_, by decide, by norm_num [gateEvsCE], by norm_num [gateEvsCE],
    by decide, by decide⟩
  norm_num [runAdmitted, tryAdmit, newEntry, newBucket, Bucket.refill,
    Bucket.canTake, Bucket.take, Bucket.enabled, gateEvsCE]



/-! ### C2 and C7: commit gate ordering and buffering -/

theorem bufLookup_insert (buf : List (Nat × List SpanResult)) (k : Nat)
    (v : List SpanResult) :
    ∀ j, bufLookup (bufInsert buf k v) j
      = if j = k then some v else bufLookup buf j := by
  induction buf with
  | nil =>
    intro j
    by_cases h : j = k
    · subst h
      simp [bufInsert, bufLookup]
    · simp [bufInsert, bufLookup, h, Ne.symm h]
  | cons p rest ih =>
    intro j
    obtain ⟨i, s⟩ := p
    rw [bufInsert]
    by_cases hik : i = k
    · rw [if_pos hik]
      rw [bufLookup, bufLookup]
      by_cases hij : i = j
      · rw [if_pos hij, if_pos hij, if_pos (by omega)]
      · rw [if_neg hij, if_neg hij, if_neg (by omega)]
    · rw [if_neg hik, bufLookup, bufLookup]
      by_cases hij : i = j
      · rw [if_pos hij, if_pos hij, if_neg (by omega)]
      · rw [if_neg hij, if_neg hij, ih j]

theorem bufLookup_erase (buf : List (Nat × List SpanResult)) (k : Nat) :
    ∀ j, bufLookup (bufErase buf k) j
      = if j = k then none else bufLookup buf j := by
  induction buf with
  | nil =>
    intro j
    by_cases h : j = k
    · subst h
      simp [bufErase, bufLookup]
    · simp [bufErase, bufLookup, h]
  | cons p rest ih =>
    intro j
    obtain ⟨i, s⟩ := p
    rw [bufErase]
    by_cases hik : i = k
    · rw [if_pos hik, ih j, bufLookup]
      by_cases hjk : j = k
      · rw [if_pos hjk, if_pos hjk]
      · rw [if_neg hjk, if_neg hjk, if_neg (by omega)]
    · rw [if_neg hik, bufLookup, bufLookup]
      by_cases hij : i = j
      · rw [if_pos hij, if_pos hij, if_neg (by omega)]
      · rw [if_neg hij, if_neg hij, ih j]

theorem bufInsert_keys_absent (buf : List (Nat × List SpanResult)) (k : Nat)
    (v : List SpanResult) (habs : bufLookup buf k = none) :
    (bufInsert buf k v).map Prod.fst = buf.map Prod.fst ++ [k] := by
  induction buf with
  | nil => simp [bufInsert]
  | cons p rest ih =>
    obtain ⟨i, s⟩ := p
    rw [bufLookup] at habs
    by_cases hik : i = k
    · rw [if_pos hik] at habs
      exact absurd habs (by simp)
    · rw [if_neg hik] at habs
      rw [bufInsert, if_neg hik, List.map_cons, List.map_cons, ih habs]
      rfl

theorem bufErase_keys (buf : List (Nat × List SpanResult)) (k : Nat) :
    (bufErase buf k).map Prod.fst
      = (buf.map Prod.fst).filter (fun i => ¬ i = k) := by
  induction buf with
  | nil => simp [bufErase]
  | cons p rest ih =>
    obtain ⟨i, s⟩ := p
    rw [bufErase]
    by_cases hik : i = k
    · rw [if_pos hik, ih, List.map_cons, List.filter_cons]
      rw [if_neg (by simp [hik])]
    · rw [if_neg hik, List.map_cons, List.map_cons, List.filter_cons]
      rw [if_pos (by simp [hik]), ih]

theorem bufLookup_mem_keys (buf : List (Nat × List SpanResult)) (k : Nat)
    (v : List SpanResult) (h : bufLookup buf k = some v) :
    k ∈ buf.map Prod.fst := by
  induction buf with
  | nil => simp [bufLookup] at h
  | cons p rest ih =>
    obtain ⟨i, s⟩ := p
    rw [bufLookup] at h
    by_cases hik : i = k
    · simp [hik]
    · rw [if_neg hik] at h
      simp [ih h]

theorem orderedTrace_succ (sp : Nat → List SpanResult) (e : Nat) :
    orderedTrace sp (e + 1)
      = orderedTrace sp e
        ++ ((sp e).map (CommitEvent.sidecarRow e) ++ [CommitEvent.primary e]) := by
  rw [orderedTrace, orderedTrace, List.range_succ, List.flatMap_append]
  rw [List.flatMap_cons, List.flatMap_nil, List.append_nil]

theorem nodupKeys_filter_len (k : Nat) :
    ∀ (keys : List Nat), keys.Nodup → k ∈ keys →
      (keys.filter (fun i => ¬ i = k)).length + 1 = keys.length := by
  intro keys
  induction keys with
  | nil =>
    intro _ h
    cases h
  | cons i rest ih =>
    intro hnd hk
    rw [List.filter_cons]
    by_cases hik : i = k
    · rw [if_neg (by simp [hik])]
      have hknr : k ∉ rest := by
        subst hik
        exact (List.nodup_cons.mp hnd).1
      have hfid : rest.filter (fun i => ¬ i = k) = rest := by
        apply List.filter_eq_self.mpr
        intro a ha
        simp only [decide_eq_true_eq]
        intro hak
        exact hknr (hak ▸ ha)
      rw [hfid]
      simp
    · rw [if_pos (by simp [hik])]
      have hkr : k ∈ rest := by
        cases List.mem_cons.mp hk with
        | inl h => exact absurd h.symm hik
        | inr h => exact h
      rw [List.length_cons, List.length_cons,
        ih (List.nodup_cons.mp hnd).2 hkr]

theorem flushGate_spec (sp : Nat → List SpanResult) (P : Nat → Prop)
    [DecidablePred P] :
    ∀ (fuel : Nat) (st : GateState),
      st.buf.length ≤ fuel →
      (st.buf.map Prod.fst).Nodup →
      (∀ k, bufLookup st.buf k
        = if P k ∧ st.expect ≤ k then some (sp k) else none) →
      st.trace = orderedTrace sp st.expect →
      st.expect ≤ (flushGate fuel st).expect
      ∧ (∀ k, st.expect ≤ k → k < (flushGate fuel st).expect → P k)
      ∧ ¬ P (flushGate fuel st).expect
      ∧ (∀ k, bufLookup (flushGate fuel st).buf k
          = if P k ∧ (flushGate fuel st).expect ≤ k then some (sp k) else none)
      ∧ ((flushGate fuel st).buf.map Prod.fst).Nodup
      ∧ (flushGate fuel st).trace = orderedTrace sp (flushGate fuel st).expect
      ∧ (flushGate fuel st).firstErr = st.firstErr
      ∧ (flushGate fuel st).maxBuf = st.maxBuf
      ∧ (flushGate fuel st).buf.length
          + ((flushGate fuel st).expect - st.expect) = st.buf.length := by
  intro fuel
  induction fuel with
  | zero =>
    intro st hlen hnd hchar htr
    have hbuf : st.buf = [] := List.length_eq_zero.mp (Nat.le_zero.mp hlen)
    have hP : ¬ P st.expect := by
      intro hPe
      have h2 := hchar st.expect
      rw [hbuf, if_pos ⟨hPe, le_refl st.expect⟩] at h2
      simp [bufLookup] at h2
    rw [flushGate]
    exact ⟨le_refl _, fun k h1 h2 => absurd (lt_of_le_of_lt h1 h2) (lt_irrefl _),
      hP, hchar, hnd, htr, rfl, rfl, by omega⟩
  | succ fuel ih =>
    intro st hlen hnd hchar htr
    cases hlk : bufLookup st.buf st.expect with
    | none =>
      have hfg : flushGate (fuel + 1) st = st := by
        rw [flushGate, hlk]
      rw [hfg]
      have hP : ¬ P st.expect := by
        intro hPe
        have h2 := hchar st.expect
        rw [hlk, if_pos ⟨hPe, le_refl st.expect⟩] at h2
        cases h2
      exact ⟨le_refl _, fun k h1 h2 => absurd (lt_of_le_of_lt h1 h2) (lt_irrefl _),
        hP, hchar, hnd, htr, rfl, rfl, by
          show st.buf.length + (st.expect - st.expect) = st.buf.length
          omega⟩
    | some spans =>
      have hfg : flushGate (fuel + 1) st = flushGate fuel
        ⟨st.expect + 1, bufErase st.buf st.expect,
         st.trace ++ spans.map (CommitEvent.sidecarRow st.expect)
           ++ [CommitEvent.primary st.expect],
         st.firstErr, st.maxBuf⟩ := by
        rw [flushGate, hlk]
      rw [hfg]
      have hPe : P st.expect ∧ spans = sp st.expect := by
        have h2 := hchar st.expect
        rw [hlk] at h2
        by_cases hp : P st.expect ∧ st.expect ≤ st.expect
        · rw [if_pos hp] at h2
          refine ⟨hp.1, ?_⟩
          simpa using h2
        · rw [if_neg hp] at h2
          cases h2
      have hmem : st.expect ∈ st.buf.map Prod.fst :=
        bufLookup_mem_keys st.buf st.expect spans hlk
      have hlen1 : 1 ≤ st.buf.length := by
        have := List.length_pos.mpr (List.ne_nil_of_mem hmem)
        simpa using this
      have herlen : (bufErase st.buf st.expect).length + 1 = st.buf.length := by
        have h1 : (bufErase st.buf st.expect).length
            = ((bufErase st.buf st.expect).map Prod.fst).length := by
          rw [List.length_map]
        rw [h1, bufErase_keys]
        rw [← List.length_map st.buf Prod.fst]
        exact nodupKeys_filter_len st.expect (st.buf.map Prod.fst) hnd hmem
      have hstep := ih
        ⟨st.expect + 1, bufErase st.buf st.expect,
         st.trace ++ spans.map (CommitEvent.sidecarRow st.expect)
           ++ [CommitEvent.primary st.expect],
         st.firstErr, st.maxBuf⟩
        (by
          show (bufErase st.buf st.expect).length ≤ fuel
          omega)
        (by
          show ((bufErase st.buf st.expect).map Prod.fst).Nodup
          rw [bufErase_keys]
          exact hnd.filter _)
        (by
          intro k
          show bufLookup (bufErase st.buf st.expect) k
            = if P k ∧ st.expect + 1 ≤ k then some (sp k) else none
          rw [bufLookup_erase]
          by_cases hke : k = st.expect
          · rw [if_pos hke, if_neg (fun hq2 => absurd hq2.2 (by omega))]
          · rw [if_neg hke, hchar k]
            by_cases hq : P k ∧ st.expect ≤ k
            · rw [if_pos hq, if_pos ⟨hq.1, by
                have h5 := hq.2
                omega⟩]
            · rw [if_neg hq, if_neg (by
                intro hq2
                have h6 := hq2.2
                exact hq ⟨hq2.1, by omega⟩)]
        )
        (by
          show st.trace ++ spans.map (CommitEvent.sidecarRow st.expect)
              ++ [CommitEvent.primary st.expect]
            = orderedTrace sp (st.expect + 1)
          rw [orderedTrace_succ, htr, hPe.2, List.append_assoc])
      obtain ⟨g1, g2, g3, g4, g5, g6, g7, g8, g9⟩ := hstep
      have g1b : st.expect + 1 ≤ (flushGate fuel
        ⟨st.expect + 1, bufErase st.buf st.expect,
         st.trace ++ spans.map (CommitEvent.sidecarRow st.expect)
           ++ [CommitEvent.primary st.expect],
         st.firstErr, st.maxBuf⟩).expect := g1
      have g9b : (flushGate fuel
        ⟨st.expect + 1, bufErase st.buf st.expect,
         st.trace ++ spans.map (CommitEvent.sidecarRow st.expect)
           ++ [CommitEvent.primary st.expect],
         st.firstErr, st.maxBuf⟩).buf.length
          + ((flushGate fuel
        ⟨st.expect + 1, bufErase st.buf st.expect,
         st.trace ++ spans.map (CommitEvent.sidecarRow st.expect)
           ++ [CommitEvent.primary st.expect],
         st.firstErr, st.maxBuf⟩).expect - (st.expect + 1))
          = (bufErase st.buf st.expect).length := g9
      refine ⟨by omega, ?_, g3, g4, g5, g6, g7, g8, by omega⟩
      intro k h1 h2
      by_cases hke : k = st.expect
      · rw [hke]
        exact hPe.1
      · exact g2 k (by
          show st.expect + 1 ≤ k
          omega) h2

theorem bufKeys_lookup (buf : List (Nat × List SpanResult)) (k : Nat) :
    k ∈ buf.map Prod.fst → ∃ v, bufLookup buf k = some v := by
  induction buf with
  | nil =>
    intro h
    simp at h
  | cons p rest ih =>
    intro h
    obtain ⟨i, s⟩ := p
    by_cases hik : i = k
    · exact ⟨s, by rw [bufLookup, if_pos hik]⟩
    · have hmr : k ∈ rest.map Prod.fst := by
        rw [List.map_cons] at h
        cases List.mem_cons.mp h with
        | inl hh => exact absurd hh.symm hik
        | inr hh => exact hh
      obtain ⟨v, hv⟩ := ih hmr
      exact ⟨v, by rw [bufLookup, if_neg hik]; exact hv⟩

theorem nodup_bounded_len (keys : List Nat) (lo hi : Nat) (hnd : keys.Nodup)
    (hb : ∀ k ∈ keys, lo ≤ k ∧ k < hi) : keys.length ≤ hi - lo := by
  have h1 : keys.toFinset ⊆ Finset.Ico lo hi := by
    intro k hk
    rw [List.mem_toFinset] at hk
    rw [Finset.mem_Ico]
    exact hb k hk
  have h2 := Finset.card_le_card h1
  rw [List.toFinset_card_of_nodup hnd] at h2
  rwa [Nat.card_Ico] at h2

theorem commitRun_inv (m : Nat) (sp : Nat → List SpanResult) :
    ∀ (idxs : List Nat) (st : GateState) (A : Finset Nat),
      idxs.Nodup →
      (∀ j, j ∈ idxs ↔ j < m ∧ j ∉ A) →
      (∀ k, k ∈ A → k < m) →
      st.expect ≤ m →
      (∀ k, k < st.expect → k ∈ A) →
      (st.expect < m → st.expect ∉ A) →
      (∀ k, bufLookup st.buf k
        = if k ∈ A ∧ st.expect ≤ k then some (sp k) else none) →
      (st.buf.map Prod.fst).Nodup →
      st.trace = orderedTrace sp st.expect →
      (commitRun st (idxs.map fun j => ⟨j, none, sp j⟩)).expect = m
      ∧ (commitRun st (idxs.map fun j => ⟨j, none, sp j⟩)).trace
          = orderedTrace sp m
      ∧ (commitRun st (idxs.map fun j => ⟨j, none, sp j⟩)).maxBuf
          ≤ max st.maxBuf (m - 1) := by
  intro idxs
  induction idxs with
  | nil =>
    intro st A hnd hchar hAm hem hA hnotA hbuf hkeys htr
    have hexp : st.expect = m := by
      by_contra hne
      have hlt : st.expect < m := lt_of_le_of_ne hem hne
      have h1 : st.expect ∈ A := by
        by_contra h2
        have := (hchar st.expect).mpr ⟨hlt, h2⟩
        simp at this
      exact (hnotA hlt) h1
    rw [List.map_nil, commitRun]
    exact ⟨hexp, by rw [htr, hexp], le_max_left _ _⟩
  | cons i idxs ih =>
    intro st A hnd hchar hAm hem hA hnotA hbuf hkeys htr
    have hi : i < m ∧ i ∉ A := (hchar i).mp (by simp)
    have hnin : i ∉ idxs := (List.nodup_cons.mp hnd).1
    have hile : st.expect ≤ i := by
      by_contra hgt
      exact hi.2 (hA i (by omega))
    have habs : bufLookup st.buf i = none := by
      rw [hbuf i, if_neg (fun hc => hi.2 hc.1)]
    have hkeys2 : ((bufInsert st.buf i (sp i)).map Prod.fst).Nodup := by
      rw [bufInsert_keys_absent st.buf i (sp i) habs]
      rw [List.nodup_append]
      refine ⟨hkeys, List.nodup_singleton i, ?_⟩
      intro a ha hai
      have hai2 : a = i := by simpa using hai
      obtain ⟨v, hv⟩ := bufKeys_lookup st.buf a ha
      rw [hai2, habs] at hv
      cases hv
    have hchar2 : ∀ k, bufLookup (bufInsert st.buf i (sp i)) k
        = if k ∈ insert i A ∧ st.expect ≤ k then some (sp k) else none := by
      intro k
      rw [bufLookup_insert]
      by_cases hki : k = i
      · rw [if_pos hki, if_pos ⟨by rw [hki]; exact Finset.mem_insert_self i A,
          by omega⟩, hki]
      · rw [if_neg hki, hbuf k]
        by_cases hq : k ∈ A ∧ st.expect ≤ k
        · rw [if_pos hq, if_pos ⟨Finset.mem_insert_of_mem hq.1, hq.2⟩]
        · rw [if_neg hq, if_neg (by
            intro hq2
            exact hq ⟨by
              cases Finset.mem_insert.mp hq2.1 with
              | inl h => exact absurd h hki
              | inr h => exact h, hq2.2⟩)]
    have hspec := flushGate_spec sp (fun k => k ∈ insert i A)
      (bufInsert st.buf i (sp i)).length
      ⟨st.expect, bufInsert st.buf i (sp i), st.trace, st.firstErr, st.maxBuf⟩
      (le_refl _) hkeys2 hchar2 htr
    have G1 : st.expect ≤ (flushGate (bufInsert st.buf i (sp i)).length
        ⟨st.expect, bufInsert st.buf i (sp i), st.trace, st.firstErr,
          st.maxBuf⟩).expect := hspec.1
    have G2 : ∀ k, st.expect ≤ k → k < (flushGate (bufInsert st.buf i (sp i)).length
        ⟨st.expect, bufInsert st.buf i (sp i), st.trace, st.firstErr,
          st.maxBuf⟩).expect → k ∈ insert i A :=
      hspec.2.1
    have G3 : (flushGate (bufInsert st.buf i (sp i)).length
        ⟨st.expect, bufInsert st.buf i (sp i), st.trace, st.firstErr,
          st.maxBuf⟩).expect ∉ insert i A := hspec.2.2.1
    have G4 : ∀ k, bufLookup (flushGate (bufInsert st.buf i (sp i)).length
        ⟨st.expect, bufInsert st.buf i (sp i), st.trace, st.firstErr,
          st.maxBuf⟩).buf k
        = if k ∈ insert i A ∧ (flushGate (bufInsert st.buf i (sp i)).length
        ⟨st.expect, bufInsert st.buf i (sp i), st.trace, st.firstErr,
          st.maxBuf⟩).expect ≤ k then some (sp k) else none :=
      hspec.2.2.2.1
    have G5 : ((flushGate (bufInsert st.buf i (sp i)).length
        ⟨st.expect, bufInsert st.buf i (sp i), st.trace, st.firstErr,
          st.maxBuf⟩).buf.map Prod.fst).Nodup := hspec.2.2.2.2.1
    have G6 : (flushGate (bufInsert st.buf i (sp i)).length
        ⟨st.expect, bufInsert st.buf i (sp i), st.trace, st.firstErr,
          st.maxBuf⟩).trace = orderedTrace sp (flushGate (bufInsert st.buf i (sp i)).length
        ⟨st.expect, bufInsert st.buf i (sp i), st.trace, st.firstErr,
          st.maxBuf⟩).expect := hspec.2.2.2.2.2.1
    have G8 : (flushGate (bufInsert st.buf i (sp i)).length
        ⟨st.expect, bufInsert st.buf i (sp i), st.trace, st.firstErr,
          st.maxBuf⟩).maxBuf = st.maxBuf := hspec.2.2.2.2.2.2.2.1
    have hAm2 : ∀ k, k ∈ insert i A → k < m := by
      intro k hk
      cases Finset.mem_insert.mp hk with
      | inl h => omega
      | inr h => exact hAm k h
    have hEm : (flushGate (bufInsert st.buf i (sp i)).length
        ⟨st.expect, bufInsert st.buf i (sp i), st.trace, st.firstErr,
          st.maxBuf⟩).expect ≤ m := by
      by_contra hgt
      exact absurd (hAm2 m (G2 m (by omega) (by omega))) (by omega)
    have hA2 : ∀ k, k < (flushGate (bufInsert st.buf i (sp i)).length
        ⟨st.expect, bufInsert st.buf i (sp i), st.trace, st.firstErr,
          st.maxBuf⟩).expect → k ∈ insert i A := by
      intro k hk
      by_cases hks : k < st.expect
      · exact Finset.mem_insert_of_mem (hA k hks)
      · exact G2 k (by omega) hk
    have hchar3 : ∀ j, j ∈ idxs ↔ j < m ∧ j ∉ insert i A := by
      intro j
      constructor
      · intro hj
        have h1 := (hchar j).mp (List.mem_cons_of_mem i hj)
        refine ⟨h1.1, ?_⟩
        intro h2
        cases Finset.mem_insert.mp h2 with
        | inl h3 =>
          subst h3
          exact hnin hj
        | inr h3 => exact h1.2 h3
      · intro hj
        have h1 : j ∈ i :: idxs := (hchar j).mpr
          ⟨hj.1, fun h2 => hj.2 (Finset.mem_insert_of_mem h2)⟩
        cases List.mem_cons.mp h1 with
        | inl h2 =>
          exact absurd (h2 ▸ Finset.mem_insert_self i A) hj.2
        | inr h2 => exact h2
    have Gb : (flushGate (bufInsert st.buf i (sp i)).length
        ⟨st.expect, bufInsert st.buf i (sp i), st.trace, st.firstErr,
          st.maxBuf⟩).buf.length ≤ m - 1 := by
      have hb1 : (flushGate (bufInsert st.buf i (sp i)).length
        ⟨st.expect, bufInsert st.buf i (sp i), st.trace, st.firstErr,
          st.maxBuf⟩).buf.length = ((flushGate (bufInsert st.buf i (sp i)).length
        ⟨st.expect, bufInsert st.buf i (sp i), st.trace, st.firstErr,
          st.maxBuf⟩).buf.map Prod.fst).length := by
        rw [List.length_map]
      have hb2 : ((flushGate (bufInsert st.buf i (sp i)).length
        ⟨st.expect, bufInsert st.buf i (sp i), st.trace, st.firstErr,
          st.maxBuf⟩).buf.map Prod.fst).length ≤ m - ((flushGate (bufInsert st.buf i (sp i)).length
        ⟨st.expect, bufInsert st.buf i (sp i), st.trace, st.firstErr,
          st.maxBuf⟩).expect + 1) := by
        apply nodup_bounded_len _ _ _ G5
        intro k hk
        obtain ⟨v, hv⟩ := bufKeys_lookup (flushGate (bufInsert st.buf i (sp i)).length
        ⟨st.expect, bufInsert st.buf i (sp i), st.trace, st.firstErr,
          st.maxBuf⟩).buf k hk
        rw [G4 k] at hv
        by_cases hq : k ∈ insert i A ∧ (flushGate (bufInsert st.buf i (sp i)).length
        ⟨st.expect, bufInsert st.buf i (sp i), st.trace, st.firstErr,
          st.maxBuf⟩).expect ≤ k
        · have hkm : k < m := hAm2 k hq.1
          have hkne : ¬ k = (flushGate (bufInsert st.buf i (sp i)).length
        ⟨st.expect, bufInsert st.buf i (sp i), st.trace, st.firstErr,
          st.maxBuf⟩).expect := by
            intro h
            exact G3 (h ▸ hq.1)
          have hge := hq.2
          omega
        · rw [if_neg hq] at hv
          cases hv
      omega
    have hcs : commitStep st ⟨i, none, sp i⟩
        = ⟨(flushGate (bufInsert st.buf i (sp i)).length
        ⟨st.expect, bufInsert st.buf i (sp i), st.trace, st.firstErr,
          st.maxBuf⟩).expect, (flushGate (bufInsert st.buf i (sp i)).length
        ⟨st.expect, bufInsert st.buf i (sp i), st.trace, st.firstErr,
          st.maxBuf⟩).buf, (flushGate (bufInsert st.buf i (sp i)).length
        ⟨st.expect, bufInsert st.buf i (sp i), st.trace, st.firstErr,
          st.maxBuf⟩).trace, (flushGate (bufInsert st.buf i (sp i)).length
        ⟨st.expect, bufInsert st.buf i (sp i), st.trace, st.firstErr,
          st.maxBuf⟩).firstErr,
           max (flushGate (bufInsert st.buf i (sp i)).length
        ⟨st.expect, bufInsert st.buf i (sp i), st.trace, st.firstErr,
          st.maxBuf⟩).maxBuf (flushGate (bufInsert st.buf i (sp i)).length
        ⟨st.expect, bufInsert st.buf i (sp i), st.trace, st.firstErr,
          st.maxBuf⟩).buf.length⟩ := rfl
    rw [List.map_cons, commitRun, hcs]
    have hfin := ih
      ⟨(flushGate (bufInsert st.buf i (sp i)).length
        ⟨st.expect, bufInsert st.buf i (sp i), st.trace, st.firstErr,
          st.maxBuf⟩).expect, (flushGate (bufInsert st.buf i (sp i)).length
        ⟨st.expect, bufInsert st.buf i (sp i), st.trace, st.firstErr,
          st.maxBuf⟩).buf, (flushGate (bufInsert st.buf i (sp i)).length
        ⟨st.expect, bufInsert st.buf i (sp i), st.trace, st.firstErr,
          st.maxBuf⟩).trace, (flushGate (bufInsert st.buf i (sp i)).length
        ⟨st.expect, bufInsert st.buf i (sp i), st.trace, st.firstErr,
          st.maxBuf⟩).firstErr,
       max (flushGate (bufInsert st.buf i (sp i)).length
        ⟨st.expect, bufInsert st.buf i (sp i), st.trace, st.firstErr,
          st.maxBuf⟩).maxBuf (flushGate (bufInsert st.buf i (sp i)).length
        ⟨st.expect, bufInsert st.buf i (sp i), st.trace, st.firstErr,
          st.maxBuf⟩).buf.length⟩
      (insert i A) (List.nodup_cons.mp hnd).2 hchar3 hAm2 hEm hA2
      (fun h => G3) G4 G5 G6
    refine ⟨hfin.1, hfin.2.1, ?_⟩
    have h3b : (commitRun
        ⟨(flushGate (bufInsert st.buf i (sp i)).length
        ⟨st.expect, bufInsert st.buf i (sp i), st.trace, st.firstErr,
          st.maxBuf⟩).expect, (flushGate (bufInsert st.buf i (sp i)).length
        ⟨st.expect, bufInsert st.buf i (sp i), st.trace, st.firstErr,
          st.maxBuf⟩).buf, (flushGate (bufInsert st.buf i (sp i)).length
        ⟨st.expect, bufInsert st.buf i (sp i), st.trace, st.firstErr,
          st.maxBuf⟩).trace, (flushGate (bufInsert st.buf i (sp i)).length
        ⟨st.expect, bufInsert st.buf i (sp i), st.trace, st.firstErr,
          st.maxBuf⟩).firstErr,
         max (flushGate (bufInsert st.buf i (sp i)).length
        ⟨st.expect, bufInsert st.buf i (sp i), st.trace, st.firstErr,
          st.maxBuf⟩).maxBuf (flushGate (bufInsert st.buf i (sp i)).length
        ⟨st.expect, bufInsert st.buf i (sp i), st.trace, st.firstErr,
          st.maxBuf⟩).buf.length⟩
        (idxs.map fun j => ⟨j, none, sp j⟩)).maxBuf
        ≤ max (max (flushGate (bufInsert st.buf i (sp i)).length
        ⟨st.expect, bufInsert st.buf i (sp i), st.trace, st.firstErr,
          st.maxBuf⟩).maxBuf (flushGate (bufInsert st.buf i (sp i)).length
        ⟨st.expect, bufInsert st.buf i (sp i), st.trace, st.firstErr,
          st.maxBuf⟩).buf.length) (m - 1) := hfin.2.2
    omega

theorem map_idx_id (sp : Nat → List SpanResult) :
    ∀ (rs : List WRes), (∀ r ∈ rs, r = ⟨r.idx, none, sp r.idx⟩) →
      rs.map (fun r => (⟨r.idx, none, sp r.idx⟩ : WRes)) = rs := by
  intro rs
  induction rs with
  | nil =>
    intro h
    rfl
  | cons r rest ih =>
    intro h
    rw [List.map_cons, ih (fun x hx => h x (List.mem_cons_of_mem r hx))]
    rw [← h r (by simp)]

theorem commitRun_perm_spec (m : Nat) (sp : Nat → List SpanResult)
    (rs : List WRes)
    (hperm : rs.Perm ((List.range m).map fun k => ⟨k, none, sp k⟩)) :
    (commitRun gateInit rs).expect = m
    ∧ (commitRun gateInit rs).trace = orderedTrace sp m
    ∧ (commitRun gateInit rs).maxBuf ≤ m - 1 := by
  have hform : ∀ r ∈ rs, r = ⟨r.idx, none, sp r.idx⟩ := by
    intro r hr
    have hmem := hperm.mem_iff.mp hr
    obtain ⟨k, hk, hke⟩ := List.mem_map.mp hmem
    rw [← hke]
  have hrs : (rs.map (fun r => r.idx)).map (fun j => (⟨j, none, sp j⟩ : WRes))
      = rs := by
    rw [List.map_map]
    exact map_idx_id sp rs hform
  have hp2 := hperm.map (fun r => r.idx)
  rw [List.map_map] at hp2
  have hkid : ((fun r => WRes.idx r) ∘ fun k => (⟨k, none, sp k⟩ : WRes))
      = id := rfl
  rw [hkid, List.map_id] at hp2
  have hnd : (rs.map (fun r => r.idx)).Nodup :=
    hp2.nodup_iff.mpr (List.nodup_range m)
  have hchar : ∀ j, j ∈ rs.map (fun r => r.idx) ↔ j < m ∧ j ∉ (∅ : Finset Nat) := by
    intro j
    rw [hp2.mem_iff, List.mem_range]
    simp
  have hinv := commitRun_inv m sp (rs.map (fun r => r.idx)) gateInit ∅
    hnd hchar (fun k hk => absurd hk (Finset.not_mem_empty k))
    (Nat.zero_le m) (fun k hk => absurd hk (by simp [gateInit]))
    (fun _ => Finset.not_mem_empty _)
    (by
      intro k
      rw [if_neg (fun hc => Finset.not_mem_empty k hc.1)]
      rfl)
    (by simp [gateInit])
    (by simp [gateInit, orderedTrace])
  rw [hrs] at hinv
  refine ⟨hinv.1, hinv.2.1, ?_⟩
  have h3 := hinv.2.2
  have hz : gateInit.maxBuf = 0 := rfl
  omega

/-- **C2**: whichever order worker results arrive on `outCh` (any
permutation of the successful results for batches `0 .. m-1`), the
commit gate emits exactly the in-order trace: for each batch `k` in
increasing `BatchIndex` order, one sidecar JSONL row per span of batch
`k` in span order, followed by the primary bytes of batch `k`; all
`m` batches get committed (`expect = m`). -/
theorem C2_commit_order (m : Nat) (sp : Nat → List SpanResult)
    (rs : List WRes)
    (hperm : rs.Perm ((List.range m).map fun k => ⟨k, none, sp k⟩)) :
    (commitRun gateInit rs).trace = orderedTrace sp m
    ∧ (commitRun gateInit rs).expect = m :=
  ⟨(commitRun_perm_spec m sp rs hperm).2.1,
   (commitRun_perm_spec m sp rs hperm).1⟩

theorem C2_commit_order_witness :
    (commitRun gateInit
        [⟨1, none, [⟨"f", 1, 1, "o1", none⟩]⟩,
         ⟨0, none, [⟨"f", 0, 0, "o0", none⟩]⟩]).trace
      = orderedTrace
          (fun k => if k = 0 then [⟨"f", 0, 0, "o0", none⟩]
            else [⟨"f", 1, 1, "o1", none⟩]) 2
    ∧ (commitRun gateInit
        [⟨1, none, [⟨"f", 1, 1, "o1", none⟩]⟩,
         ⟨0, none, [⟨"f", 0, 0, "o0", none⟩]⟩]).expect = 2 :=
  C2_commit_order 2
    (fun k => if k = 0 then [⟨"f", 0, 0, "o0", none⟩]
      else [⟨"f", 1, 1, "o1", none⟩])
    [⟨1, none, [⟨"f", 1, 1, "o1", none⟩]⟩,
     ⟨0, none, [⟨"f", 0, 0, "o0", none⟩]⟩]
    (by decide)

/-- **C7** (amended): the out-of-order buffer of the commit gate can
hold up to `m − 1` completed batches (`m` the number of batches of the
file), and this — not `concurrency − 1` — is the tight bound; the
claimed `concurrency − 1` bound is refuted by `C7_counterexample`. -/
theorem C7_buffer_bound (m : Nat) (sp : Nat → List SpanResult)
    (rs : List WRes)
    (hperm : rs.Perm ((List.range m).map fun k => ⟨k, none, sp k⟩)) :
    (commitRun gateInit rs).maxBuf ≤ m - 1 :=
  (commitRun_perm_spec m sp rs hperm).2.2

theorem C7_buffer_bound_witness :
    (commitRun gateInit
        [⟨1, none, []⟩, ⟨2, none, []⟩, ⟨0, none, []⟩]).maxBuf ≤ 3 - 1 :=
  C7_buffer_bound 3 (fun _ => [])
    [⟨1, none, []⟩, ⟨2, none, []⟩, ⟨0, none, []⟩] (by decide)

/-- The claimed `concurrency − 1` buffer bound fails: with
`Concurrency = 2` the worker pool can realize the completion order
`[1, 2, 0]` for 3 batches (worker 0 takes batch 0 and is slow; worker
1 processes batches 1 and 2), and the commit gate then buffers 2
completed batches — more than `concurrency − 1 = 1`. -/
theorem C7_counterexample :
    (schedRun (schedInit 2 3)
        [.dispatch 0, .dispatch 1, .complete 1, .dispatch 1,
         .complete 1, .complete 0]).map Sched.completions
      = some [1, 2, 0]
    ∧ (schedInit 2 3).workers.length = 2
    ∧ (commitRun gateInit
        [⟨1, none, []⟩, ⟨2, none, []⟩, ⟨0, none, []⟩]).maxBuf = 2
    ∧ ¬ ((commitRun gateInit
        [⟨1, none, []⟩, ⟨2, none, []⟩, ⟨0, none, []⟩]).maxBuf ≤ 2 - 1) := by
  decide



/-! ### C10: SRT splitter extension filter -/

theorem srtSplit_example_parse :
    srtSplit (srtNew none) "a.srt"
        "1\n00:00:01,000 --> 00:00:02,000\nHello\nWorld\n\n2\n00:00:03,000 --> 00:00:04,000\nBye\n"
      = Except.ok
        [⟨0, "a.srt", "Hello\nWorld",
          some [("seq", "1"), ("time", "00:00:01,000 --> 00:00:02,000")]⟩,
         ⟨1, "a.srt", "Bye",
          some [("seq", "2"), ("time", "00:00:03,000 --> 00:00:04,000")]⟩] := by
  decide

theorem srtSplit_example_skip :
    srtSplit (srtNew none) "a.txt" "garbage" = Except.ok [] := by decide

theorem srtSplit_example_invalid_seq :
    srtSplit (srtNew none) "a.srt" "x\n"
      = Except.error (SrtErr.invalidSeq "x") := by decide

theorem srtSplit_example_fragment_limit :
    srtSplit (srtNew (some ⟨3, none⟩)) "a.srt"
        "1\n00:00:01,000 --> 00:00:02,000\nHello\n\n"
      = Except.error (SrtErr.fragTooLarge 5 3) := by decide

theorem srtSplit_example_empty_allow :
    srtSplit (srtNew (some ⟨0, some []⟩)) "a.whatever" "x\n"
      = Except.error (SrtErr.invalidSeq "x") := by decide

/-- **C10**: when the splitter has an allow set (`allow ≠ nil` -- the
default `{".srt"}` when options or the allow list are absent; only an
explicitly empty allow list removes the restriction) and the
lower-cased extension of `fileID` is not in it, `Split` returns nil
records and nil error for *every* input (the stream is never read). -/
theorem C10_ext_filter (opts : Option SrtOptions) (fileID input : String)
    (al : List String)
    (hallow : (srtNew opts).allow = some al)
    (hnot : String.mk ((pathExt fileID.toList).map Char.toLower) ∉ al) :
    srtSplit (srtNew opts) fileID input = Except.ok []
    ∧ (srtNew none).allow = some [".srt"]
    ∧ (∀ o : SrtOptions, o.allowExts = some [] →
        (srtNew (some o)).allow = none) := by
  refine ⟨?_, rfl, ?_⟩
  · simp only [srtSplit, hallow]
    rw [if_neg hnot]
  · intro o ho
    rw [srtNew]
    simp only [ho]
    rfl

theorem C10_ext_filter_witness :
    srtSplit (srtNew none) "movie.txt" "1\ngarbage" = Except.ok []
    ∧ (srtNew none).allow = some [".srt"]
    ∧ (∀ o : SrtOptions, o.allowExts = some [] →
        (srtNew (some o)).allow = none) :=
  C10_ext_filter none "movie.txt" "1\ngarbage" [".srt"] (by decide) (by decide)


end LLMSPT
